import Mathlib

/-!
Verification of the FastXmlReader scanner (ext/fast_xml_reader/fast_xml_reader.c).

The C code is shallowly embedded: bytes are `Nat` values (0..255), the backing
buffer is a `List Nat`, `size_t` cursors are `Nat`, and the C `int` depth
counters are `Int`.  Pointer/length pairs into the buffer are represented as
the byte lists they denote (`slice`).  Loops whose termination is not
structural (`parse_attrs`, the `again` loop of `reader_read_internal`) are
written with an explicit fuel parameter returning `Option`; the total wrappers
run them with fuel `size - pos + 1`, and the fuel is proved sufficient below
(that sufficiency is exactly the termination property claimed of the C code).
-/

namespace FXR

/-- Whitespace test used throughout the C file: ' ', '\t', '\n', '\r'. -/
def isSpaceByte (c : Nat) : Bool := c = 32 || c = 9 || c = 10 || c = 13

/-- Index of the first occurrence of byte `b` in `l` (helper for `memchr`). -/
def findByte (b : Nat) : List Nat → Option Nat
  | [] => none
  | c :: cs => if c = b then some 0 else (findByte b cs).map (· + 1)

/-- C `memchr(data + pos, b, len)`: absolute index of the first occurrence of
`b` at an index in `[pos, pos + len)`, scanning only bytes of the buffer. -/
def memchr (d : List Nat) (b pos len : Nat) : Option Nat :=
  (findByte b ((d.drop pos).take len)).map (· + pos)

/-- The byte slice `[start, start + len)` of the buffer (a C pointer/length pair). -/
def slice (d : List Nat) (start len : Nat) : List Nat := (d.drop start).take len

/-- Split `l` at the first occurrence of `b`: bytes before it, and (when found)
the bytes strictly after it. -/
def breakAtByte (b : Nat) : List Nat → List Nat × Option (List Nat)
  | [] => ([], none)
  | c :: cs =>
    if c = b then ([], some cs)
    else (c :: (breakAtByte b cs).1, (breakAtByte b cs).2)

/-- The loop of C `skip_spaces`, structurally recursive on a fuel that counts
the bytes left in the buffer (the loop advances `pos` every iteration, so it
runs at most `size - pos` times; fuel exhaustion coincides with `pos ≥ size`,
see `skipSpacesF_fuel`). -/
def skipSpacesF (d : List Nat) : Nat → Nat → Nat
  | 0, pos => pos
  | fuel + 1, pos =>
    if pos < d.length then
      if isSpaceByte (d.getD pos 0) then skipSpacesF d fuel (pos + 1) else pos
    else pos

/-- C `skip_spaces`: advance past any run of whitespace bytes. -/
def skip_spaces (d : List Nat) (pos : Nat) : Nat := skipSpacesF d (d.length - pos) pos

/-- C `is_blank`: true iff every byte of the slice is whitespace. -/
def is_blank (l : List Nat) : Bool := l.all isSpaceByte

/-- Element-name scan of `reader_read_internal`: advance while the byte is not
whitespace, '>', or '/'. -/
def scanElemNameF (d : List Nat) : Nat → Nat → Nat
  | 0, pos => pos
  | fuel + 1, pos =>
    if pos < d.length then
      if isSpaceByte (d.getD pos 0) || d.getD pos 0 = 62 || d.getD pos 0 = 47 then pos
      else scanElemNameF d fuel (pos + 1)
    else pos

/-- Wrapper running the element-name scan with its exact iteration bound. -/
def scanElemName (d : List Nat) (pos : Nat) : Nat := scanElemNameF d (d.length - pos) pos

/-- Attribute-name scan of `parse_attrs`: advance while the byte is not '=',
whitespace, '>', or '/'. -/
def scanAttrNameF (d : List Nat) : Nat → Nat → Nat
  | 0, pos => pos
  | fuel + 1, pos =>
    if pos < d.length then
      if d.getD pos 0 = 61 || isSpaceByte (d.getD pos 0) || d.getD pos 0 = 62 ||
          d.getD pos 0 = 47 then pos
      else scanAttrNameF d fuel (pos + 1)
    else pos

/-- Wrapper running the attribute-name scan with its exact iteration bound. -/
def scanAttrName (d : List Nat) (pos : Nat) : Nat := scanAttrNameF d (d.length - pos) pos

/-- C `skip_comment`: `pos` is just past `<!--`; advance past the next `-->`
or to EOF. -/
def skipCommentF (d : List Nat) : Nat → Nat → Nat
  | 0, _ => d.length
  | fuel + 1, pos =>
    if pos + 2 < d.length then
      match memchr d 45 pos (d.length - pos - 1) with
      | none => d.length
      | some p =>
        if p + 2 < d.length ∧ d.getD p 0 = 45 ∧ d.getD (p + 1) 0 = 45 ∧
            d.getD (p + 2) 0 = 62 then p + 3
        else skipCommentF d fuel (p + 1)
    else d.length

/-- Wrapper running the comment skipper with its exact iteration bound. -/
def skip_comment (d : List Nat) (pos : Nat) : Nat := skipCommentF d (d.length - pos) pos

/-- C `skip_pi`: `pos` is just past `<?`; advance past the next `?>` or to EOF. -/
def skipPiF (d : List Nat) : Nat → Nat → Nat
  | 0, _ => d.length
  | fuel + 1, pos =>
    if pos + 1 < d.length then
      match memchr d 63 pos (d.length - pos - 1) with
      | none => d.length
      | some p =>
        if d.getD (p + 1) 0 = 62 then p + 2
        else skipPiF d fuel (p + 1)
    else d.length

/-- Wrapper running the processing-instruction skipper with its exact bound. -/
def skip_pi (d : List Nat) (pos : Nat) : Nat := skipPiF d (d.length - pos) pos

/-- C `skip_cdata`: `pos` is just past `<![CDATA[`; advance past the next `]]>`
or to EOF. -/
def skipCdataF (d : List Nat) : Nat → Nat → Nat
  | 0, _ => d.length
  | fuel + 1, pos =>
    if pos + 2 < d.length then
      match memchr d 93 pos (d.length - pos - 2) with
      | none => d.length
      | some p =>
        if d.getD (p + 1) 0 = 93 ∧ d.getD (p + 2) 0 = 62 then p + 3
        else skipCdataF d fuel (p + 1)
    else d.length

/-- Wrapper running the CDATA skipper with its exact iteration bound. -/
def skip_cdata (d : List Nat) (pos : Nat) : Nat := skipCdataF d (d.length - pos) pos

/-- C `skip_doctype`: advance past the `>` at bracket-depth zero, tracking
nested `[...]`, or to EOF. -/
def skipDoctypeF (d : List Nat) : Nat → Nat → Int → Nat
  | 0, pos, _ => pos
  | fuel + 1, pos, bd =>
    if pos < d.length then
      if d.getD pos 0 = 91 then skipDoctypeF d fuel (pos + 1) (bd + 1)
      else if d.getD pos 0 = 93 then skipDoctypeF d fuel (pos + 1) (bd - 1)
      else if d.getD pos 0 = 62 ∧ bd = 0 then pos + 1
      else skipDoctypeF d fuel (pos + 1) bd
    else pos

/-- Wrapper running the DOCTYPE skipper with its exact iteration bound. -/
def skip_doctype (d : List Nat) (pos : Nat) (bracket_depth : Int) : Nat :=
  skipDoctypeF d (d.length - pos) pos bracket_depth

/-- Trailing-whitespace trim applied to end-tag names: drop trailing bytes
`≤ ' '` (the C loop `while (raw_len > 0 && nptr[raw_len-1] <= ' ') raw_len--`). -/
def trimTrailing (l : List Nat) : List Nat :=
  (l.reverse.dropWhile (fun c => decide (c ≤ 32))).reverse

/-- Namespace-prefix strip used for start tags, end tags and the collapse peek:
`memchr(nptr, ':', nlen)`; when a colon is found, drop everything up to and
including the first colon. -/
def stripNsName (nm : List Nat) : List Nat :=
  match memchr nm 58 0 nm.length with
  | none => nm
  | some k => nm.drop (k + 1)

/-- The C `signed char` value of a byte (bytes ≥ 128 are negative). -/
def byteToCharVal (c : Nat) : Int := if c < 128 then (c : Int) else (c : Int) - 256

/-- One step of the hex numeric-entity accumulator: `cp <<= 4` then add the
digit value when the character is a hex digit (unsigned long, mod 2^64). -/
def hexStep (cp c : Nat) : Nat :=
  let cp2 := (cp * 16) % 18446744073709551616
  if 48 ≤ c ∧ c ≤ 57 then (cp2 + (c - 48)) % 18446744073709551616
  else if 97 ≤ c ∧ c ≤ 102 then (cp2 + (c - 97 + 10)) % 18446744073709551616
  else if 65 ≤ c ∧ c ≤ 70 then (cp2 + (c - 65 + 10)) % 18446744073709551616
  else cp2

/-- One step of the decimal numeric-entity accumulator:
`cp = cp * 10 + (unsigned long)(c - '0')` (unsigned long, mod 2^64). -/
def decStep (cp c : Nat) : Nat :=
  (cp * 10 + ((byteToCharVal c - 48).emod 18446744073709551616).toNat) %
    18446744073709551616

/-- UTF-8 encoding of a code point as in `decode_entities` (1/2/3/4 bytes by
magnitude; the leading byte of the 4-byte form is truncated to a char). -/
def utf8Encode (cp : Nat) : List Nat :=
  if cp < 128 then [cp]
  else if cp < 2048 then [192 ||| cp / 64, 128 ||| cp % 64]
  else if cp < 65536 then
    [224 ||| cp / 4096, 128 ||| (cp / 64) % 64, 128 ||| cp % 64]
  else
    [(240 ||| cp / 262144) % 256, 128 ||| (cp / 4096) % 64,
     128 ||| (cp / 64) % 64, 128 ||| cp % 64]

/-- Replacement bytes for one entity whose name (the bytes between `&` and `;`)
is `ename`: the five named entities, numeric references, or the full `&…;`
verbatim for anything unknown. -/
def entityOutput (ename : List Nat) : List Nat :=
  if ename = [97, 109, 112] then [38]
  else if ename = [108, 116] then [60]
  else if ename = [103, 116] then [62]
  else if ename = [113, 117, 111, 116] then [34]
  else if ename = [97, 112, 111, 115] then [39]
  else if 1 < ename.length ∧ ename.getD 0 0 = 35 then
    let cp :=
      if ename.getD 1 0 = 120 ∨ ename.getD 1 0 = 88 then
        (ename.drop 2).foldl hexStep 0
      else (ename.drop 1).foldl decStep 0
    utf8Encode cp
  else 38 :: ename ++ [59]

/-- The slow-path loop of `decode_entities`: copy bytes up to each `&`; with no
closing `;` copy the `&` literally and continue after it; otherwise emit the
entity's replacement and continue after the `;`.  Structurally recursive on a
fuel bounding the iteration count: every iteration consumes at least the `&`
byte, so `src.length` iterations always suffice (`decodeLoopF_fuel` below),
and with fuel 0 the remaining input is empty. -/
def decodeLoopF : Nat → List Nat → List Nat
  | 0, _ => []
  | fuel + 1, src =>
    match breakAtByte 38 src with
    | (before, none) => before
    | (before, some rest) =>
      match breakAtByte 59 rest with
      | (_, none) => before ++ 38 :: decodeLoopF fuel rest
      | (ename, some rest2) => before ++ entityOutput ename ++ decodeLoopF fuel rest2

/-- The slow path of `decode_entities`, run with its exact iteration bound. -/
def decodeLoop (src : List Nat) : List Nat := decodeLoopF src.length src

/-- C `decode_entities`: fast path when the source contains no `&`, otherwise
the slow-path loop. -/
def decode_entities (src : List Nat) : List Nat :=
  if src.contains 38 then decodeLoop src else src

/-- One parsed attribute: name slice, value slice (quotes excluded), and
whether the value contains `&`. -/
structure AttrEntry where
  name : List Nat
  value : List Nat
  val_has_entity : Bool
deriving DecidableEq, Repr

/-- Result of `parse_attrs`: final cursor, kept attributes, self-closing flag. -/
structure AttrResult where
  pos : Nat
  attrs : List AttrEntry
  is_empty : Bool
deriving DecidableEq, Repr

/-- The loop of C `parse_attrs`, with explicit fuel (one unit per loop
iteration); `none` means the fuel ran out. -/
def parseAttrsLoop (d : List Nat) : Nat → Nat → List AttrEntry → Option AttrResult
  | 0, _, _ => none
  | fuel + 1, pos, attrs =>
    if pos < d.length then
      let pos1 := skip_spaces d pos
      if pos1 ≥ d.length then some ⟨pos1, attrs, false⟩
      else
        let c := d.getD pos1 0
        if c = 62 then some ⟨pos1 + 1, attrs, false⟩
        else if c = 47 then
          some ⟨if pos1 + 1 < d.length ∧ d.getD (pos1 + 1) 0 = 62 then pos1 + 2
                else pos1 + 1, attrs, true⟩
        else
          let name_start := pos1
          let name_end := scanAttrName d pos1
          let pos2 := skip_spaces d name_end
          if pos2 ≥ d.length ∨ d.getD pos2 0 ≠ 61 then
            parseAttrsLoop d fuel pos2 attrs
          else
            let pos3 := skip_spaces d (pos2 + 1)
            if pos3 ≥ d.length then some ⟨pos3, attrs, false⟩
            else
              let quote := d.getD pos3 0
              if quote ≠ 34 ∧ quote ≠ 39 then parseAttrsLoop d fuel pos3 attrs
              else
                let val_start := pos3 + 1
                match memchr d quote val_start (d.length - val_start) with
                | none => some ⟨d.length, attrs, false⟩
                | some val_end =>
                  let has_entity := (memchr d 38 val_start (val_end - val_start)).isSome
                  let nm := slice d name_start (name_end - name_start)
                  if 5 ≤ nm.length ∧ nm.take 5 = [120, 109, 108, 110, 115] ∧
                      (nm.length = 5 ∨ nm.getD 5 0 = 58) then
                    parseAttrsLoop d fuel (val_end + 1) attrs
                  else
                    parseAttrsLoop d fuel (val_end + 1)
                      (if attrs.length < 32 then
                        attrs ++ [⟨nm, slice d val_start (val_end - val_start), has_entity⟩]
                      else attrs)
    else some ⟨pos, attrs, false⟩

/-- C `parse_attrs` started at `pos` (just after the element name); the fuel
`size - pos + 1` is proved sufficient below. -/
def parse_attrs (d : List Nat) (pos : Nat) : AttrResult :=
  (parseAttrsLoop d (d.length - pos + 1) pos []).getD ⟨d.length, [], false⟩

/-- The reader state: backing buffer, cursor and current-node view
(the C struct `FastReader`, minus the Ruby-object bookkeeping). -/
structure FastReader where
  data : List Nat
  pos : Nat
  depth : Int
  report_depth : Int
  node_type : Nat
  is_empty : Bool
  name : Option (List Nat)
  text : List Nat
  text_has_entity : Bool
  attrs : List AttrEntry
deriving DecidableEq, Repr

/-- End-element branch of `reader_read_internal`; `r.pos` is at the `<` of
`</…>`. -/
def endTagStep (r : FastReader) : Bool × FastReader :=
  let name_start := r.pos + 2
  match memchr r.data 62 name_start (r.data.length - name_start) with
  | none => (false, { r with pos := r.data.length })
  | some gt =>
    let nm := trimTrailing (stripNsName (slice r.data name_start (gt - name_start)))
    let dep := if 0 < r.depth then r.depth - 1 else r.depth
    (true, { r with pos := gt + 1, name := some nm, node_type := 15,
                    is_empty := false, depth := dep, report_depth := dep })

/-- Start-element branch of `reader_read_internal`; `r.pos` is at the `<` of
the start tag.  Scans the name, strips the namespace prefix, parses the
attributes, and applies the self-closing collapse peek. -/
def startTagStep (r : FastReader) : Bool × FastReader :=
  let name_start := r.pos + 1
  let posN := scanElemName r.data name_start
  let nm := stripNsName (slice r.data name_start (posN - name_start))
  let ar := parse_attrs r.data posN
  let col :=
    if ar.is_empty = false then
      if ar.pos + 1 < r.data.length ∧ r.data.getD ar.pos 0 = 60 ∧
          r.data.getD (ar.pos + 1) 0 = 47 then
        let peek := ar.pos + 2
        match memchr r.data 62 peek (r.data.length - peek) with
        | none => (false, ar.pos)
        | some gt =>
          let closeNm := trimTrailing (stripNsName (slice r.data peek (gt - peek)))
          if closeNm.length = nm.length ∧ closeNm.take nm.length = nm.take nm.length then
            (true, gt + 1)
          else (false, ar.pos)
      else (false, ar.pos)
    else (true, ar.pos)
  (true, { r with pos := col.2, name := some nm, node_type := 1,
                  is_empty := col.1, report_depth := r.depth,
                  depth := if col.1 then r.depth else r.depth + 1,
                  attrs := ar.attrs })

/-- Text branch of `reader_read_internal`: record the slice `[r.pos, text_end)`
as the current text node. -/
def textStep (r : FastReader) (text_end : Nat) : Bool × FastReader :=
  let tlen := text_end - r.pos
  (true, { r with pos := text_end, node_type := 3, report_depth := r.depth,
                  text := slice r.data r.pos tlen,
                  text_has_entity := (memchr r.data 38 r.pos tlen).isSome,
                  is_empty := false, name := none })

/-- The `again` loop of `reader_read_internal`, with explicit fuel (one unit
per pass through the loop); `none` means the fuel ran out. -/
def readLoop : Nat → FastReader → Option (Bool × FastReader)
  | 0, _ => none
  | fuel + 1, r =>
    if r.pos ≥ r.data.length then some (false, r)
    else if r.data.getD r.pos 0 = 60 then
      if r.pos + 1 ≥ r.data.length then some (false, { r with pos := r.pos + 1 })
      else
        let c := r.data.getD (r.pos + 1) 0
        if c = 47 then some (endTagStep r)
        else if c = 33 ∧ r.pos + 3 < r.data.length ∧ r.data.getD (r.pos + 2) 0 = 45 ∧
            r.data.getD (r.pos + 3) 0 = 45 then
          readLoop fuel { r with pos := skip_comment r.data (r.pos + 4) }
        else if c = 33 ∧ r.pos + 8 < r.data.length ∧
            slice r.data (r.pos + 1) 8 = [33, 91, 67, 68, 65, 84, 65, 91] then
          readLoop fuel { r with pos := skip_cdata r.data (r.pos + 9) }
        else if c = 33 ∧ r.pos + 8 < r.data.length ∧
            slice r.data (r.pos + 2) 7 = [68, 79, 67, 84, 89, 80, 69] then
          readLoop fuel { r with pos := skip_doctype r.data (r.pos + 9) 0 }
        else if c = 63 then
          readLoop fuel { r with pos := skip_pi r.data (r.pos + 2) }
        else some (startTagStep r)
    else
      let text_end :=
        match memchr r.data 60 r.pos (r.data.length - r.pos) with
        | some lt => lt
        | none => r.data.length
      if is_blank (slice r.data r.pos (text_end - r.pos)) then
        readLoop fuel { r with pos := text_end }
      else some (textStep r text_end)

/-- C `reader_read_internal`: reset the per-node state, then run the scan loop;
the fuel `size - pos + 1` is proved sufficient below. -/
def reader_read_internal (r : FastReader) : Bool × FastReader :=
  let r0 : FastReader := { r with text := [], text_has_entity := false, attrs := [] }
  (readLoop (r.data.length - r.pos + 1) r0).getD (false, r0)

/-- A freshly opened reader over buffer `d` (cursor 0, depth 0). -/
def initReader (d : List Nat) : FastReader :=
  { data := d, pos := 0, depth := 0, report_depth := 0, node_type := 0,
    is_empty := false, name := none, text := [], text_has_entity := false,
    attrs := [] }

/-- The externally observable view of one node. -/
structure XmlNode where
  node_type : Nat
  name : Option (List Nat)
  report_depth : Int
  text : List Nat
  is_empty : Bool
  attrs : List AttrEntry
deriving DecidableEq, Repr

/-- Project the current-node view out of the reader state. -/
def nodeOf (r : FastReader) : XmlNode :=
  ⟨r.node_type, r.name, r.report_depth, r.text, r.is_empty, r.attrs⟩

/-- Nodes produced by up to `n` successive `read()` calls (stops at the first
`false`). -/
def readNodes : Nat → FastReader → List XmlNode
  | 0, _ => []
  | n + 1, r =>
    let p := reader_read_internal r
    if p.1 then nodeOf p.2 :: readNodes n p.2 else []

/-- The full node sequence of a document: `size + 1` reads always suffice. -/
def nodesOf (d : List Nat) : List XmlNode :=
  readNodes (d.length + 1) (initReader d)

/-- The boolean results of `n` successive `read()` calls. -/
def readList : Nat → FastReader → List Bool
  | 0, _ => []
  | n + 1, r =>
    let p := reader_read_internal r
    p.1 :: readList n p.2

/-- The reader state after `n` `read()` calls. -/
def advanceN : Nat → FastReader → FastReader
  | 0, r => r
  | n + 1, r => advanceN n (reader_read_internal r).2

/-- FNV-1a over the bytes (32-bit unsigned arithmetic). -/
def fnv1a (l : List Nat) : Nat :=
  l.foldl (fun h b => ((h ^^^ b) * 16777619) % 4294967296) 2166136261

/-- The probe loop of C `intern_name`: up to 8 slots starting at `idx`,
wrapping mod 512.  An empty slot stores the name and returns it; a hit
(equal length and byte-wise equal contents) returns the stored string; a full
window returns a fresh unshared copy without inserting. -/
def internLoop (nm : List Nat) (idx : Nat) :
    (Nat → Option (List Nat)) → Nat → Nat → List Nat × (Nat → Option (List Nat))
  | cache, _, 0 => (nm, cache)
  | cache, i, fuel + 1 =>
    let slot := (idx + i) % 512
    match cache slot with
    | none => (nm, fun j => if j = slot then some nm else cache j)
    | some e =>
      if e.length = nm.length ∧ e.take nm.length = nm.take nm.length then (e, cache)
      else internLoop nm idx cache (i + 1) fuel

/-- C `intern_name`: probe the 8-slot window at `fnv1a(name) & 511`
(`& 511` on an unsigned value is `% 512`). -/
def intern_name (cache : Nat → Option (List Nat)) (nm : List Nat) :
    List Nat × (Nat → Option (List Nat)) :=
  internLoop nm (fnv1a nm % 512) cache 0 8

/-! ### Basic lemmas about the byte-level primitives -/

theorem getD_drop (a : Nat) : ∀ (n : Nat) (l : List Nat) (k : Nat),
    (l.drop n).getD k a = l.getD (n + k) a := by
  intro n
  induction n with
  | zero => intro l k; simp
  | succ m ih =>
    intro l k
    cases l with
    | nil => rfl
    | cons c cs =>
      have hidx : m + 1 + k = (m + k) + 1 := by omega
      rw [List.drop_succ_cons, ih cs k, hidx, List.getD_cons_succ]

theorem getD_take (a : Nat) : ∀ (L : Nat) (l : List Nat) (k : Nat), k < L →
    (l.take L).getD k a = l.getD k a := by
  intro L
  induction L with
  | zero => intro l k h; omega
  | succ m ih =>
    intro l k h
    cases l with
    | nil => rfl
    | cons c cs =>
      cases k with
      | zero => simp
      | succ j =>
        rw [List.take_succ_cons, List.getD_cons_succ, List.getD_cons_succ]
        exact ih cs j (by omega)

theorem getD_append_left (a : Nat) : ∀ (l1 l2 : List Nat) (i : Nat), i < l1.length →
    (l1 ++ l2).getD i a = l1.getD i a := by
  intro l1
  induction l1 with
  | nil => intro l2 i h; simp at h
  | cons c cs ih =>
    intro l2 i h
    cases i with
    | zero => simp
    | succ j =>
      rw [List.cons_append, List.getD_cons_succ, List.getD_cons_succ]
      exact ih l2 j (by simp at h; omega)

theorem getD_append_add (a : Nat) : ∀ (l1 l2 : List Nat) (i : Nat),
    (l1 ++ l2).getD (l1.length + i) a = l2.getD i a := by
  intro l1
  induction l1 with
  | nil => intro l2 i; simp
  | cons c cs ih =>
    intro l2 i
    have hidx : (c :: cs).length + i = (cs.length + i) + 1 := by
      simp only [List.length_cons]; omega
    rw [hidx, List.cons_append, List.getD_cons_succ, ih l2 i]

theorem findByte_some_lt {b : Nat} : ∀ {l : List Nat} {k : Nat},
    findByte b l = some k → k < l.length := by
  intro l
  induction l with
  | nil => intro k h; simp [findByte] at h
  | cons c cs ih =>
    intro k h
    rw [findByte] at h
    by_cases hc : c = b
    · rw [if_pos hc] at h
      cases h
      simp
    · rw [if_neg hc, Option.map_eq_some'] at h
      obtain ⟨j, hj, rfl⟩ := h
      have := ih hj
      simp only [List.length_cons]
      omega

theorem findByte_some_getD {b : Nat} : ∀ {l : List Nat} {k : Nat},
    findByte b l = some k → l.getD k 0 = b := by
  intro l
  induction l with
  | nil => intro k h; simp [findByte] at h
  | cons c cs ih =>
    intro k h
    rw [findByte] at h
    by_cases hc : c = b
    · rw [if_pos hc] at h
      cases h
      simpa using hc
    · rw [if_neg hc, Option.map_eq_some'] at h
      obtain ⟨j, hj, rfl⟩ := h
      simpa using ih hj

theorem findByte_none {b : Nat} : ∀ {l : List Nat}, findByte b l = none → b ∉ l := by
  intro l
  induction l with
  | nil => intro _ h; simp at h
  | cons c cs ih =>
    intro h
    rw [findByte] at h
    by_cases hc : c = b
    · rw [if_pos hc] at h; cases h
    · rw [if_neg hc] at h
      simp only [Option.map_eq_none'] at h
      have := ih h
      simp only [List.mem_cons]
      intro hmem
      rcases hmem with h1 | h2
      · exact hc h1.symm
      · exact this h2

theorem findByte_append_not_mem {b : Nat} : ∀ (mid post : List Nat), b ∉ mid →
    findByte b (mid ++ b :: post) = some mid.length := by
  intro mid
  induction mid with
  | nil => intro post _; simp [findByte]
  | cons c cs ih =>
    intro post hb
    have hc : c ≠ b := by
      intro hh; exact hb (by simp [hh])
    have hcs : b ∉ cs := fun hh => hb (by simp [hh])
    rw [List.cons_append, findByte, if_neg hc, ih post hcs]
    simp [List.length_cons]

theorem memchr_ge {d : List Nat} {b pos len p : Nat}
    (h : memchr d b pos len = some p) : pos ≤ p := by
  simp only [memchr, Option.map_eq_some'] at h
  obtain ⟨k, -, hk⟩ := h
  omega

theorem memchr_lt_add {d : List Nat} {b pos len p : Nat}
    (h : memchr d b pos len = some p) : p < pos + len := by
  simp only [memchr, Option.map_eq_some'] at h
  obtain ⟨k, hk, rfl⟩ := h
  have := findByte_some_lt hk
  simp only [List.length_take, List.length_drop] at this
  omega

theorem memchr_lt_length {d : List Nat} {b pos len p : Nat}
    (h : memchr d b pos len = some p) : p < d.length := by
  simp only [memchr, Option.map_eq_some'] at h
  obtain ⟨k, hk, rfl⟩ := h
  have := findByte_some_lt hk
  simp only [List.length_take, List.length_drop] at this
  omega

theorem memchr_getD {d : List Nat} {b pos len p : Nat}
    (h : memchr d b pos len = some p) : d.getD p 0 = b := by
  simp only [memchr, Option.map_eq_some'] at h
  obtain ⟨k, hk, rfl⟩ := h
  have hlt := findByte_some_lt hk
  have hg := findByte_some_getD hk
  simp only [List.length_take, List.length_drop] at hlt
  rw [getD_take 0 len _ k (by omega)] at hg
  rw [getD_drop] at hg
  rw [Nat.add_comm k pos]
  exact hg

theorem memchr_none_not_mem {d : List Nat} {b pos len : Nat}
    (h : memchr d b pos len = none) : b ∉ (d.drop pos).take len := by
  simp only [memchr, Option.map_eq_none'] at h
  exact findByte_none h

theorem memchr_gt_of_ne {d : List Nat} {b pos len p : Nat}
    (h : memchr d b pos len = some p) (hne : d.getD pos 0 ≠ b) : pos < p := by
  have h1 := memchr_ge h
  have h2 := memchr_getD h
  rcases Nat.lt_or_ge pos p with hlt | hge
  · exact hlt
  · exact absurd (by rw [← Nat.le_antisymm h1 hge] at h2; exact h2) hne

/-- A structured `memchr`: the buffer is `pre ++ mid ++ b :: post`, the scan
starts at the end of `pre`, the window is long enough, and `b` does not occur
in `mid`; then the first hit is exactly at `pre.length + mid.length`. -/
theorem memchr_structured (pre mid post : List Nat) (b L : Nat)
    (hb : b ∉ mid) (hL : mid.length + 1 ≤ L) :
    memchr (pre ++ mid ++ b :: post) b pre.length L =
      some (pre.length + mid.length) := by
  have hdrop : (pre ++ mid ++ b :: post).drop pre.length = mid ++ b :: post := by
    rw [List.append_assoc, List.drop_left]
  have h5 : (b :: post).take (L - mid.length) =
      b :: post.take (L - mid.length - 1) := by
    cases hn : L - mid.length with
    | zero => omega
    | succ n => simp [List.take_succ_cons]
  have htake : (mid ++ b :: post).take L =
      mid ++ b :: post.take (L - mid.length - 1) := by
    rw [List.take_append_eq_append_take, List.take_of_length_le (by omega), h5]
  have hfind : findByte b ((mid ++ b :: post).take L) = some mid.length := by
    rw [htake]
    exact findByte_append_not_mem mid _ hb
  simp only [memchr, hdrop, hfind, Option.map_some']
  rw [Nat.add_comm]

theorem slice_mid (pre mid post : List Nat) :
    slice (pre ++ mid ++ post) pre.length mid.length = mid := by
  simp only [slice]
  rw [List.append_assoc, List.drop_left, List.take_append_eq_append_take,
    List.take_of_length_le (Nat.le_refl _), Nat.sub_self, List.take_zero,
    List.append_nil]

/-! ### Lemmas about the scanning primitives

For each fuel-run loop: the cursor never moves backwards (`…_ge`), it never
leaves the buffer (`…_le`), and the canonical fuel `size - pos` is exact — any
larger fuel yields the same result (`…_fuel`), which is the termination
argument for the corresponding C loop. -/

theorem skipSpacesF_ge (d : List Nat) : ∀ (fuel pos : Nat), pos ≤ skipSpacesF d fuel pos := by
  intro fuel
  induction fuel with
  | zero => intro pos; exact Nat.le_refl _
  | succ f ih =>
    intro pos
    rw [skipSpacesF]
    split
    · split
      · have := ih (pos + 1)
        omega
      · exact Nat.le_refl _
    · exact Nat.le_refl _

theorem skipSpacesF_le (d : List Nat) : ∀ (fuel pos : Nat), pos ≤ d.length →
    skipSpacesF d fuel pos ≤ d.length := by
  intro fuel
  induction fuel with
  | zero => intro pos h; exact h
  | succ f ih =>
    intro pos h
    rw [skipSpacesF]
    split
    · split
      · exact ih (pos + 1) (by omega)
      · exact h
    · exact h

theorem skipSpacesF_eof (d : List Nat) (fuel pos : Nat) (h : d.length ≤ pos) :
    skipSpacesF d fuel pos = pos := by
  cases fuel with
  | zero => rfl
  | succ f =>
    rw [skipSpacesF, if_neg (by omega)]

theorem skipSpacesF_fuel (d : List Nat) : ∀ (f g pos : Nat),
    d.length - pos ≤ f → d.length - pos ≤ g →
    skipSpacesF d f pos = skipSpacesF d g pos := by
  intro f
  induction f with
  | zero =>
    intro g pos hf hg
    rw [skipSpacesF_eof d 0 pos (by omega), skipSpacesF_eof d g pos (by omega)]
  | succ f1 ih =>
    intro g pos hf hg
    by_cases hp : pos < d.length
    · cases g with
      | zero => omega
      | succ g1 =>
        rw [skipSpacesF, skipSpacesF, if_pos hp, if_pos hp]
        by_cases hs : isSpaceByte (d.getD pos 0) = true
        · rw [if_pos hs, if_pos hs]
          exact ih g1 (pos + 1) (by omega) (by omega)
        · rw [if_neg hs, if_neg hs]
    · rw [skipSpacesF_eof d _ pos (by omega), skipSpacesF_eof d g pos (by omega)]

theorem skip_spaces_ge (d : List Nat) (pos : Nat) : pos ≤ skip_spaces d pos :=
  skipSpacesF_ge d _ pos

theorem skip_spaces_le (d : List Nat) (pos : Nat) (h : pos ≤ d.length) :
    skip_spaces d pos ≤ d.length :=
  skipSpacesF_le d _ pos h

theorem skip_spaces_eq_of_not_space (d : List Nat) (pos : Nat)
    (h : isSpaceByte (d.getD pos 0) = false) : skip_spaces d pos = pos := by
  rw [skip_spaces]
  cases hf : d.length - pos with
  | zero => rfl
  | succ f =>
    rw [skipSpacesF]
    by_cases hp : pos < d.length
    · rw [if_pos hp, if_neg]
      intro hcon
      rw [h] at hcon
      exact Bool.false_ne_true hcon
    · rw [if_neg hp]

theorem skip_spaces_step (d : List Nat) (pos : Nat) (hp : pos < d.length)
    (hs : isSpaceByte (d.getD pos 0) = true) :
    skip_spaces d pos = skip_spaces d (pos + 1) := by
  rw [skip_spaces, skip_spaces]
  have h1 : d.length - pos = (d.length - (pos + 1)) + 1 := by omega
  rw [h1, skipSpacesF, if_pos hp, hs]
  simp

theorem scanElemNameF_ge (d : List Nat) : ∀ (fuel pos : Nat),
    pos ≤ scanElemNameF d fuel pos := by
  intro fuel
  induction fuel with
  | zero => intro pos; exact Nat.le_refl _
  | succ f ih =>
    intro pos
    rw [scanElemNameF]
    split
    · split
      · exact Nat.le_refl _
      · have := ih (pos + 1)
        omega
    · exact Nat.le_refl _

theorem scanElemNameF_le (d : List Nat) : ∀ (fuel pos : Nat), pos ≤ d.length →
    scanElemNameF d fuel pos ≤ d.length := by
  intro fuel
  induction fuel with
  | zero => intro pos h; exact h
  | succ f ih =>
    intro pos h
    rw [scanElemNameF]
    split
    · split
      · exact h
      · exact ih (pos + 1) (by omega)
    · exact h

theorem scanElemNameF_eof (d : List Nat) (fuel pos : Nat) (h : d.length ≤ pos) :
    scanElemNameF d fuel pos = pos := by
  cases fuel with
  | zero => rfl
  | succ f =>
    rw [scanElemNameF, if_neg (by omega)]

theorem scanElemNameF_fuel (d : List Nat) : ∀ (f g pos : Nat),
    d.length - pos ≤ f → d.length - pos ≤ g →
    scanElemNameF d f pos = scanElemNameF d g pos := by
  intro f
  induction f with
  | zero =>
    intro g pos hf hg
    rw [scanElemNameF_eof d 0 pos (by omega), scanElemNameF_eof d g pos (by omega)]
  | succ f1 ih =>
    intro g pos hf hg
    by_cases hp : pos < d.length
    · cases g with
      | zero => omega
      | succ g1 =>
        rw [scanElemNameF, scanElemNameF, if_pos hp, if_pos hp]
        by_cases hs : (isSpaceByte (d.getD pos 0) || d.getD pos 0 = 62 ||
            d.getD pos 0 = 47) = true
        · rw [if_pos hs, if_pos hs]
        · rw [if_neg hs, if_neg hs]
          exact ih g1 (pos + 1) (by omega) (by omega)
    · rw [scanElemNameF_eof d _ pos (by omega), scanElemNameF_eof d g pos (by omega)]

theorem scanElemName_ge (d : List Nat) (pos : Nat) : pos ≤ scanElemName d pos :=
  scanElemNameF_ge d _ pos

theorem scanElemName_le (d : List Nat) (pos : Nat) (h : pos ≤ d.length) :
    scanElemName d pos ≤ d.length :=
  scanElemNameF_le d _ pos h

theorem scanElemName_stop (d : List Nat) (pos : Nat)
    (h : (isSpaceByte (d.getD pos 0) || d.getD pos 0 = 62 || d.getD pos 0 = 47) = true) :
    scanElemName d pos = pos := by
  rw [scanElemName]
  cases hf : d.length - pos with
  | zero => rfl
  | succ f =>
    rw [scanElemNameF]
    by_cases hp : pos < d.length
    · rw [if_pos hp, if_pos h]
    · rw [if_neg hp]

theorem scanElemName_step (d : List Nat) (pos : Nat) (hp : pos < d.length)
    (h : (isSpaceByte (d.getD pos 0) || d.getD pos 0 = 62 || d.getD pos 0 = 47) = false) :
    scanElemName d pos = scanElemName d (pos + 1) := by
  rw [scanElemName, scanElemName]
  have h1 : d.length - pos = (d.length - (pos + 1)) + 1 := by omega
  rw [h1, scanElemNameF, if_pos hp, h]
  simp

theorem scanAttrNameF_ge (d : List Nat) : ∀ (fuel pos : Nat),
    pos ≤ scanAttrNameF d fuel pos := by
  intro fuel
  induction fuel with
  | zero => intro pos; exact Nat.le_refl _
  | succ f ih =>
    intro pos
    rw [scanAttrNameF]
    split
    · split
      · exact Nat.le_refl _
      · have := ih (pos + 1)
        omega
    · exact Nat.le_refl _

theorem scanAttrNameF_le (d : List Nat) : ∀ (fuel pos : Nat), pos ≤ d.length →
    scanAttrNameF d fuel pos ≤ d.length := by
  intro fuel
  induction fuel with
  | zero => intro pos h; exact h
  | succ f ih =>
    intro pos h
    rw [scanAttrNameF]
    split
    · split
      · exact h
      · exact ih (pos + 1) (by omega)
    · exact h

theorem scanAttrName_ge (d : List Nat) (pos : Nat) : pos ≤ scanAttrName d pos :=
  scanAttrNameF_ge d _ pos

theorem scanAttrName_le (d : List Nat) (pos : Nat) (h : pos ≤ d.length) :
    scanAttrName d pos ≤ d.length :=
  scanAttrNameF_le d _ pos h

theorem skipCommentF_ge (d : List Nat) : ∀ (fuel pos : Nat), pos ≤ d.length →
    pos ≤ skipCommentF d fuel pos := by
  intro fuel
  induction fuel with
  | zero => intro pos h; exact h
  | succ f ih =>
    intro pos h
    rw [skipCommentF]
    split
    · split
      case h_1 => exact h
      case h_2 p hm =>
        have h1 := memchr_ge hm
        have h2 := memchr_lt_length hm
        split
        · omega
        · have h3 := ih (p + 1) (by omega)
          omega
    · exact h

theorem skipCommentF_le (d : List Nat) : ∀ (fuel pos : Nat),
    skipCommentF d fuel pos ≤ d.length := by
  intro fuel
  induction fuel with
  | zero => intro pos; exact Nat.le_refl _
  | succ f ih =>
    intro pos
    rw [skipCommentF]
    split
    · split
      case h_1 => exact Nat.le_refl _
      case h_2 p hm =>
        split
        case isTrue hc => omega
        case isFalse hc => exact ih (p + 1)
    · exact Nat.le_refl _

theorem skipCommentF_eof (d : List Nat) (fuel pos : Nat) (h : ¬ (pos + 2 < d.length)) :
    skipCommentF d fuel pos = d.length := by
  cases fuel with
  | zero => rfl
  | succ f =>
    rw [skipCommentF, if_neg h]

theorem skipCommentF_fuel (d : List Nat) : ∀ (f g pos : Nat),
    d.length - pos ≤ f → d.length - pos ≤ g →
    skipCommentF d f pos = skipCommentF d g pos := by
  intro f
  induction f with
  | zero =>
    intro g pos hf hg
    rw [skipCommentF_eof d 0 pos (by omega), skipCommentF_eof d g pos (by omega)]
  | succ f1 ih =>
    intro g pos hf hg
    by_cases hp : pos + 2 < d.length
    · cases g with
      | zero => omega
      | succ g1 =>
        rw [skipCommentF, skipCommentF, if_pos hp, if_pos hp]
        cases hm : memchr d 45 pos (d.length - pos - 1) with
        | none => simp only [hm]
        | some p =>
          simp only [hm]
          have h1 := memchr_ge hm
          split
          · rfl
          · exact ih g1 (p + 1) (by omega) (by omega)
    · rw [skipCommentF_eof d _ pos hp, skipCommentF_eof d g pos hp]

theorem skipPiF_ge (d : List Nat) : ∀ (fuel pos : Nat), pos ≤ d.length →
    pos ≤ skipPiF d fuel pos := by
  intro fuel
  induction fuel with
  | zero => intro pos h; exact h
  | succ f ih =>
    intro pos h
    rw [skipPiF]
    split
    · split
      case h_1 => exact h
      case h_2 p hm =>
        have h1 := memchr_ge hm
        have h2 := memchr_lt_length hm
        split
        · omega
        · have h3 := ih (p + 1) (by omega)
          omega
    · exact h

theorem skipPiF_le (d : List Nat) : ∀ (fuel pos : Nat),
    skipPiF d fuel pos ≤ d.length := by
  intro fuel
  induction fuel with
  | zero => intro pos; exact Nat.le_refl _
  | succ f ih =>
    intro pos
    rw [skipPiF]
    split
    case isTrue hp =>
      split
      case h_1 => exact Nat.le_refl _
      case h_2 p hm =>
        have h2 := memchr_lt_add hm
        split
        case isTrue hc => omega
        case isFalse hc => exact ih (p + 1)
    case isFalse hp => exact Nat.le_refl _

theorem skipPiF_eof (d : List Nat) (fuel pos : Nat) (h : ¬ (pos + 1 < d.length)) :
    skipPiF d fuel pos = d.length := by
  cases fuel with
  | zero => rfl
  | succ f =>
    rw [skipPiF, if_neg h]

theorem skipPiF_fuel (d : List Nat) : ∀ (f g pos : Nat),
    d.length - pos ≤ f → d.length - pos ≤ g →
    skipPiF d f pos = skipPiF d g pos := by
  intro f
  induction f with
  | zero =>
    intro g pos hf hg
    rw [skipPiF_eof d 0 pos (by omega), skipPiF_eof d g pos (by omega)]
  | succ f1 ih =>
    intro g pos hf hg
    by_cases hp : pos + 1 < d.length
    · cases g with
      | zero => omega
      | succ g1 =>
        rw [skipPiF, skipPiF, if_pos hp, if_pos hp]
        cases hm : memchr d 63 pos (d.length - pos - 1) with
        | none => simp only [hm]
        | some p =>
          simp only [hm]
          have h1 := memchr_ge hm
          split
          · rfl
          · exact ih g1 (p + 1) (by omega) (by omega)
    · rw [skipPiF_eof d _ pos hp, skipPiF_eof d g pos hp]

theorem skipCdataF_ge (d : List Nat) : ∀ (fuel pos : Nat), pos ≤ d.length →
    pos ≤ skipCdataF d fuel pos := by
  intro fuel
  induction fuel with
  | zero => intro pos h; exact h
  | succ f ih =>
    intro pos h
    rw [skipCdataF]
    split
    · split
      case h_1 => exact h
      case h_2 p hm =>
        have h1 := memchr_ge hm
        have h2 := memchr_lt_length hm
        split
        · omega
        · have h3 := ih (p + 1) (by omega)
          omega
    · exact h

theorem skipCdataF_le (d : List Nat) : ∀ (fuel pos : Nat),
    skipCdataF d fuel pos ≤ d.length := by
  intro fuel
  induction fuel with
  | zero => intro pos; exact Nat.le_refl _
  | succ f ih =>
    intro pos
    rw [skipCdataF]
    split
    case isTrue hp =>
      split
      case h_1 => exact Nat.le_refl _
      case h_2 p hm =>
        have h2 := memchr_lt_add hm
        split
        case isTrue hc => omega
        case isFalse hc => exact ih (p + 1)
    case isFalse hp => exact Nat.le_refl _

theorem skipCdataF_eof (d : List Nat) (fuel pos : Nat) (h : ¬ (pos + 2 < d.length)) :
    skipCdataF d fuel pos = d.length := by
  cases fuel with
  | zero => rfl
  | succ f =>
    rw [skipCdataF, if_neg h]

theorem skipCdataF_fuel (d : List Nat) : ∀ (f g pos : Nat),
    d.length - pos ≤ f → d.length - pos ≤ g →
    skipCdataF d f pos = skipCdataF d g pos := by
  intro f
  induction f with
  | zero =>
    intro g pos hf hg
    rw [skipCdataF_eof d 0 pos (by omega), skipCdataF_eof d g pos (by omega)]
  | succ f1 ih =>
    intro g pos hf hg
    by_cases hp : pos + 2 < d.length
    · cases g with
      | zero => omega
      | succ g1 =>
        rw [skipCdataF, skipCdataF, if_pos hp, if_pos hp]
        cases hm : memchr d 93 pos (d.length - pos - 2) with
        | none => simp only [hm]
        | some p =>
          simp only [hm]
          have h1 := memchr_ge hm
          split
          · rfl
          · exact ih g1 (p + 1) (by omega) (by omega)
    · rw [skipCdataF_eof d _ pos hp, skipCdataF_eof d g pos hp]

theorem skipDoctypeF_ge (d : List Nat) : ∀ (fuel pos : Nat) (bd : Int),
    pos ≤ skipDoctypeF d fuel pos bd := by
  intro fuel
  induction fuel with
  | zero => intro pos bd; exact Nat.le_refl _
  | succ f ih =>
    intro pos bd
    rw [skipDoctypeF]
    split
    · split
      · have := ih (pos + 1) (bd + 1)
        omega
      · split
        · have := ih (pos + 1) (bd - 1)
          omega
        · split
          · omega
          · have := ih (pos + 1) bd
            omega
    · exact Nat.le_refl _

theorem skipDoctypeF_le (d : List Nat) : ∀ (fuel pos : Nat) (bd : Int), pos ≤ d.length →
    skipDoctypeF d fuel pos bd ≤ d.length := by
  intro fuel
  induction fuel with
  | zero => intro pos bd h; exact h
  | succ f ih =>
    intro pos bd h
    rw [skipDoctypeF]
    split
    · split
      · exact ih (pos + 1) (bd + 1) (by omega)
      · split
        · exact ih (pos + 1) (bd - 1) (by omega)
        · split
          · omega
          · exact ih (pos + 1) bd (by omega)
    · exact h

theorem skipDoctypeF_eof (d : List Nat) (fuel pos : Nat) (bd : Int) (h : d.length ≤ pos) :
    skipDoctypeF d fuel pos bd = pos := by
  cases fuel with
  | zero => rfl
  | succ f =>
    rw [skipDoctypeF, if_neg (by omega)]

theorem skipDoctypeF_fuel (d : List Nat) : ∀ (f g pos : Nat) (bd : Int),
    d.length - pos ≤ f → d.length - pos ≤ g →
    skipDoctypeF d f pos bd = skipDoctypeF d g pos bd := by
  intro f
  induction f with
  | zero =>
    intro g pos bd hf hg
    rw [skipDoctypeF_eof d 0 pos bd (by omega), skipDoctypeF_eof d g pos bd (by omega)]
  | succ f1 ih =>
    intro g pos bd hf hg
    by_cases hp : pos < d.length
    · cases g with
      | zero => omega
      | succ g1 =>
        rw [skipDoctypeF, skipDoctypeF, if_pos hp, if_pos hp]
        by_cases h91 : d.getD pos 0 = 91
        · rw [if_pos h91, if_pos h91]
          exact ih g1 (pos + 1) (bd + 1) (by omega) (by omega)
        · rw [if_neg h91, if_neg h91]
          by_cases h93 : d.getD pos 0 = 93
          · rw [if_pos h93, if_pos h93]
            exact ih g1 (pos + 1) (bd - 1) (by omega) (by omega)
          · rw [if_neg h93, if_neg h93]
            by_cases h62 : d.getD pos 0 = 62 ∧ bd = 0
            · rw [if_pos h62, if_pos h62]
            · rw [if_neg h62, if_neg h62]
              exact ih g1 (pos + 1) bd (by omega) (by omega)
    · rw [skipDoctypeF_eof d _ pos bd (by omega), skipDoctypeF_eof d g pos bd (by omega)]

theorem skip_comment_ge (d : List Nat) (pos : Nat) (h : pos ≤ d.length) :
    pos ≤ skip_comment d pos :=
  skipCommentF_ge d _ pos h

theorem skip_comment_le (d : List Nat) (pos : Nat) : skip_comment d pos ≤ d.length :=
  skipCommentF_le d _ pos

theorem skip_pi_ge (d : List Nat) (pos : Nat) (h : pos ≤ d.length) :
    pos ≤ skip_pi d pos :=
  skipPiF_ge d _ pos h

theorem skip_pi_le (d : List Nat) (pos : Nat) : skip_pi d pos ≤ d.length :=
  skipPiF_le d _ pos

theorem skip_cdata_ge (d : List Nat) (pos : Nat) (h : pos ≤ d.length) :
    pos ≤ skip_cdata d pos :=
  skipCdataF_ge d _ pos h

theorem skip_cdata_le (d : List Nat) (pos : Nat) : skip_cdata d pos ≤ d.length :=
  skipCdataF_le d _ pos

theorem skip_doctype_ge (d : List Nat) (pos : Nat) (bd : Int) :
    pos ≤ skip_doctype d pos bd :=
  skipDoctypeF_ge d _ pos bd

theorem skip_doctype_le (d : List Nat) (pos : Nat) (bd : Int) (h : pos ≤ d.length) :
    skip_doctype d pos bd ≤ d.length :=
  skipDoctypeF_le d _ pos bd h

/-! ### Lemmas about `breakAtByte` and the entity decoder -/

theorem breakAtByte_none_eq {b : Nat} : ∀ {l pre : List Nat},
    breakAtByte b l = (pre, none) → pre = l := by
  intro l
  induction l with
  | nil =>
    intro pre h
    rw [breakAtByte] at h
    exact (congrArg Prod.fst h).symm
  | cons c cs ih =>
    intro pre h
    rw [breakAtByte] at h
    by_cases hc : c = b
    · rw [if_pos hc] at h
      exact absurd (congrArg Prod.snd h) (by simp)
    · rw [if_neg hc] at h
      have h1 : c :: (breakAtByte b cs).1 = pre := congrArg Prod.fst h
      have h2 : (breakAtByte b cs).2 = none := congrArg Prod.snd h
      have h3 : breakAtByte b cs = ((breakAtByte b cs).1, none) := by rw [← h2]
      have h4 := ih h3
      rw [← h1, h4]

theorem breakAtByte_some_eq {b : Nat} : ∀ {l pre rest : List Nat},
    breakAtByte b l = (pre, some rest) → l = pre ++ b :: rest := by
  intro l
  induction l with
  | nil =>
    intro pre rest h
    rw [breakAtByte] at h
    exact absurd (congrArg Prod.snd h) (by simp)
  | cons c cs ih =>
    intro pre rest h
    rw [breakAtByte] at h
    by_cases hc : c = b
    · rw [if_pos hc] at h
      have h1 : ([] : List Nat) = pre := congrArg Prod.fst h
      have h2 : some cs = some rest := congrArg Prod.snd h
      obtain rfl : cs = rest := Option.some.inj h2
      rw [← h1, hc]
      rfl
    · rw [if_neg hc] at h
      have h1 : c :: (breakAtByte b cs).1 = pre := congrArg Prod.fst h
      have h2 : (breakAtByte b cs).2 = some rest := congrArg Prod.snd h
      have h3 : breakAtByte b cs = ((breakAtByte b cs).1, some rest) := by rw [← h2]
      have h4 := ih h3
      rw [← h1, List.cons_append, ← h4]

theorem utf8Encode_length_le (cp : Nat) : (utf8Encode cp).length ≤ 4 := by
  rw [utf8Encode]
  split
  · simp
  · split
    · simp
    · split
      · simp
      · simp

theorem entityOutput_length_le (ename : List Nat) :
    (entityOutput ename).length ≤ ename.length + 2 := by
  rw [entityOutput]
  split
  case isTrue h => subst h; simp
  case isFalse =>
  split
  case isTrue h => subst h; simp
  case isFalse =>
  split
  case isTrue h => subst h; simp
  case isFalse =>
  split
  case isTrue h => subst h; simp
  case isFalse =>
  split
  case isTrue h => subst h; simp
  case isFalse =>
  split
  case isTrue h =>
    dsimp only
    have h4 := utf8Encode_length_le
      (if ename.getD 1 0 = 120 ∨ ename.getD 1 0 = 88 then
        (ename.drop 2).foldl hexStep 0
      else (ename.drop 1).foldl decStep 0)
    omega
  case isFalse => simp

theorem decodeLoopF_length_le : ∀ (fuel : Nat) (src : List Nat),
    (decodeLoopF fuel src).length ≤ src.length := by
  intro fuel
  induction fuel with
  | zero => intro src; simp [decodeLoopF]
  | succ f ih =>
    intro src
    rw [decodeLoopF]
    split
    case h_1 before heq =>
      rw [breakAtByte_none_eq heq]
    case h_2 before rest heq =>
      have hsrc := breakAtByte_some_eq heq
      have hlen : src.length = before.length + 1 + rest.length := by
        rw [hsrc]; simp [List.length_append]; omega
      split
      case h_1 ename heq2 =>
        have hrec := ih rest
        simp only [List.length_append, List.length_cons]
        omega
      case h_2 ename rest2 heq2 =>
        have hrest := breakAtByte_some_eq heq2
        have hlen2 : rest.length = ename.length + 1 + rest2.length := by
          rw [hrest]; simp [List.length_append]; omega
        have hrec := ih rest2
        have hout := entityOutput_length_le ename
        simp only [List.length_append]
        omega

/-- The fuel `src.length` of `decodeLoop` is exact: any larger fuel computes
the same result (each iteration strictly shrinks the remaining input). -/
theorem decodeLoopF_fuel : ∀ (f g : Nat) (src : List Nat),
    src.length ≤ f → src.length ≤ g → decodeLoopF f src = decodeLoopF g src := by
  intro f
  induction f with
  | zero =>
    intro g src hf hg
    have hnil : src = [] := List.length_eq_zero.mp (by omega)
    subst hnil
    cases g with
    | zero => rfl
    | succ g1 => rw [decodeLoopF, decodeLoopF]; rfl
  | succ f1 ih =>
    intro g src hf hg
    cases g with
    | zero =>
      have hnil : src = [] := List.length_eq_zero.mp (by omega)
      subst hnil
      rw [decodeLoopF, decodeLoopF]
      rfl
    | succ g1 =>
      rw [decodeLoopF, decodeLoopF]
      cases hb : breakAtByte 38 src with
      | mk before o =>
        cases o with
        | none => simp only [hb]
        | some rest =>
          simp only [hb]
          have hsrc := breakAtByte_some_eq hb
          have hlen : src.length = before.length + 1 + rest.length := by
            rw [hsrc]; simp [List.length_append]; omega
          cases hb2 : breakAtByte 59 rest with
          | mk ename o2 =>
            cases o2 with
            | none =>
              simp only [hb2]
              rw [ih g1 rest (by omega) (by omega)]
            | some rest2 =>
              simp only [hb2]
              have hrest := breakAtByte_some_eq hb2
              have hlen2 : rest.length = ename.length + 1 + rest2.length := by
                rw [hrest]; simp [List.length_append]; omega
              rw [ih g1 rest2 (by omega) (by omega)]

/-! ### Claim C8: entity decoding never lengthens the byte string -/

/-- C8.  For every source byte string (any mix of named entities, numeric
references, malformed references, unknown entities and bare `&`), the output
of `decode_entities` is at most as long as the source. -/
theorem decode_entities_length_le (src : List Nat) :
    (decode_entities src).length ≤ src.length := by
  rw [decode_entities]
  split
  · rw [decodeLoop]
    exact decodeLoopF_length_le src.length src
  · exact Nat.le_refl _

/-! ### Claim C7: decoding `&amp;amp;` -/

/-- C7.  `decode_entities "&amp;amp;" = "&amp;"` and decoding again yields
`"&"` (byte values: `&`=38, `a`=97, `m`=109, `p`=112, `;`=59). -/
theorem decode_amp_amp :
    decode_entities [38, 97, 109, 112, 59, 97, 109, 112, 59] = [38, 97, 109, 112, 59] ∧
    decode_entities [38, 97, 109, 112, 59] = [38] := by
  constructor
  · decide
  · decide

/-! ### Claim C10: the intern cache always returns the input bytes -/

theorem internLoop_fst (nm : List Nat) (idx : Nat) :
    ∀ (fuel : Nat) (cache : Nat → Option (List Nat)) (i : Nat),
    (internLoop nm idx cache i fuel).1 = nm := by
  intro fuel
  induction fuel with
  | zero => intro cache i; rfl
  | succ f ih =>
    intro cache i
    rw [internLoop]
    cases hslot : cache ((idx + i) % 512) with
    | none => rfl
    | some e =>
      dsimp only
      split
      case isTrue hcond =>
        have h1 : e.take nm.length = e := by
          rw [← hcond.1]
          exact List.take_of_length_le (Nat.le_refl _)
        have h2 : nm.take nm.length = nm := List.take_of_length_le (Nat.le_refl _)
        rw [h1, h2] at hcond
        exact hcond.2
      case isFalse hcond => exact ih cache (i + 1)

/-- C10.  For every cache contents and every name slice, `intern_name` returns
a string byte-wise equal to the input slice — on a cache hit (which requires
equal length and equal bytes), on a fresh insertion, and on a full probe
window alike; hash collisions can never surface a wrong name. -/
theorem intern_name_returns_input (cache : Nat → Option (List Nat)) (nm : List Nat) :
    (intern_name cache nm).1 = nm := by
  rw [intern_name]
  exact internLoop_fst nm (fnv1a nm % 512) 8 cache 0

/-! ### Claim C3: namespace-prefix stripping and colons in names -/

/-- C3 counterexample.  On input `<a:b:c/>` the reader reports name `b:c`
(bytes `[98, 58, 99]`), which still contains the colon byte 58: `name()` drops
only the part up to and including the *first* colon, so a name with two colons
keeps the second one.  This refutes "the colon is never present in a returned
name". -/
theorem name_colon_counterexample :
    nodesOf [60, 97, 58, 98, 58, 99, 47, 62] =
      [⟨1, some [98, 58, 99], 0, [], true, []⟩] ∧
    58 ∈ [98, 58, 99] := by
  constructor
  · decide
  · decide

/-- C3 (amended).  The reader strips everything up to and including the first
colon (`stripNsName`, applied to start-tag names, end-tag names and the
collapse peek alike); consequently whenever the raw tag name contains at most
one colon, the reported local name contains no colon at all. -/
theorem stripNsName_colon_free (nm : List Nat) (h : List.count 58 nm ≤ 1) :
    58 ∉ stripNsName nm := by
  rw [stripNsName]
  split
  case h_1 hk =>
    have := memchr_none_not_mem hk
    simpa using this
  case h_2 k hk =>
    intro hmem
    have hg := memchr_getD hk
    have hl := memchr_lt_length hk
    have hsplit : nm = nm.take (k + 1) ++ nm.drop (k + 1) :=
      (List.take_append_drop _ _).symm
    have h1 : 58 ∈ nm.take (k + 1) := by
      have hk1 : k < (nm.take (k + 1)).length := by
        simp [List.length_take]
        omega
      have hgt : (nm.take (k + 1)).getD k 0 = 58 := by
        rw [getD_take 0 (k + 1) nm k (by omega)]
        exact hg
      have hmem2 : (nm.take (k + 1)).getD k 0 ∈ nm.take (k + 1) := by
        rw [List.getD_eq_getElem _ 0 hk1]
        exact List.getElem_mem hk1
      rw [hgt] at hmem2
      exact hmem2
    have hc1 : 0 < (nm.take (k + 1)).count 58 := List.count_pos_iff.mpr h1
    have hc2 : 0 < (nm.drop (k + 1)).count 58 := List.count_pos_iff.mpr hmem
    have hca : nm.count 58 = (nm.take (k + 1)).count 58 + (nm.drop (k + 1)).count 58 := by
      conv_lhs => rw [hsplit]
      exact List.count_append _ _ _
    have hcount : List.count 58 nm = nm.count 58 := rfl
    omega

/-- Witness for C3 (amended): the raw name `ns:c` (one colon) strips to a
colon-free local name. -/
theorem stripNsName_colon_free_witness :
    List.count 58 [110, 115, 58, 99] ≤ 1 ∧ 58 ∉ stripNsName [110, 115, 58, 99] :=
  ⟨by decide, stripNsName_colon_free [110, 115, 58, 99] (by decide)⟩

/-! ### Claim C1: the concrete end-to-end scenario `<a><b>hi</b></a>` -/

/-- C1.  On input `<a><b>hi</b></a>` the reader yields exactly five successful
reads — ELEMENT `a` at depth 0, ELEMENT `b` at depth 1, TEXT `hi` at depth 2
with no name, END_ELEMENT `b` at depth 1, END_ELEMENT `a` at depth 0, all with
`is_empty = false` — and the sixth `read()` returns false. -/
theorem reader_scenario1 :
    readList 6 (initReader [60, 97, 62, 60, 98, 62, 104, 105, 60, 47, 98, 62, 60, 47, 97, 62]) =
      [true, true, true, true, true, false] ∧
    nodesOf [60, 97, 62, 60, 98, 62, 104, 105, 60, 47, 98, 62, 60, 47, 97, 62] =
      [⟨1, some [97], 0, [], false, []⟩,
       ⟨1, some [98], 1, [], false, []⟩,
       ⟨3, none, 2, [104, 105], false, []⟩,
       ⟨15, some [98], 1, [], false, []⟩,
       ⟨15, some [97], 0, [], false, []⟩] := by
  constructor
  · decide
  · decide

/-! ### Claim C2, counterexample part: whitespace-only content is not collapsed -/

/-- C2 counterexample.  `<a> </a>` (whitespace-only content) does *not* produce
the same node sequence as `<a/>`: the collapse peek requires `</` immediately
after the start tag, so the former yields a non-empty ELEMENT followed by an
END_ELEMENT while the latter yields a single empty ELEMENT. -/
theorem collapse_whitespace_counterexample :
    nodesOf [60, 97, 62, 32, 60, 47, 97, 62] ≠ nodesOf [60, 97, 47, 62] := by
  decide

/-! ### Lemmas about `parse_attrs` -/

theorem skipSpacesF_result (d : List Nat) : ∀ (fuel pos : Nat), d.length - pos ≤ fuel →
    d.length ≤ skipSpacesF d fuel pos ∨
    isSpaceByte (d.getD (skipSpacesF d fuel pos) 0) = false := by
  intro fuel
  induction fuel with
  | zero =>
    intro pos h
    left
    show d.length ≤ pos
    omega
  | succ f ih =>
    intro pos h
    rw [skipSpacesF]
    by_cases hp : pos < d.length
    · rw [if_pos hp]
      by_cases hs : isSpaceByte (d.getD pos 0) = true
      · rw [if_pos hs]
        exact ih (pos + 1) (by omega)
      · rw [if_neg hs]
        right
        exact Bool.not_eq_true _ ▸ (Bool.of_not_eq_true hs)
    · rw [if_neg hp]
      left
      omega

theorem skip_spaces_result (d : List Nat) (pos : Nat) :
    d.length ≤ skip_spaces d pos ∨
    isSpaceByte (d.getD (skip_spaces d pos) 0) = false :=
  skipSpacesF_result d _ pos (Nat.le_refl _)

theorem scanAttrNameF_result (d : List Nat) : ∀ (fuel pos : Nat), d.length - pos ≤ fuel →
    d.length ≤ scanAttrNameF d fuel pos ∨
    (d.getD (scanAttrNameF d fuel pos) 0 = 61 ∨
     isSpaceByte (d.getD (scanAttrNameF d fuel pos) 0) = true ∨
     d.getD (scanAttrNameF d fuel pos) 0 = 62 ∨
     d.getD (scanAttrNameF d fuel pos) 0 = 47) := by
  intro fuel
  induction fuel with
  | zero =>
    intro pos h
    left
    show d.length ≤ pos
    omega
  | succ f ih =>
    intro pos h
    rw [scanAttrNameF]
    by_cases hp : pos < d.length
    · rw [if_pos hp]
      by_cases hs : (d.getD pos 0 = 61 || isSpaceByte (d.getD pos 0) ||
          d.getD pos 0 = 62 || d.getD pos 0 = 47) = true
      · rw [if_pos hs]
        right
        simp only [Bool.or_eq_true, decide_eq_true_eq] at hs
        tauto
      · rw [if_neg hs]
        exact ih (pos + 1) (by omega)
    · rw [if_neg hp]
      left
      omega

theorem scanAttrName_result (d : List Nat) (pos : Nat) :
    d.length ≤ scanAttrName d pos ∨
    (d.getD (scanAttrName d pos) 0 = 61 ∨
     isSpaceByte (d.getD (scanAttrName d pos) 0) = true ∨
     d.getD (scanAttrName d pos) 0 = 62 ∨
     d.getD (scanAttrName d pos) 0 = 47) :=
  scanAttrNameF_result d _ pos (Nat.le_refl _)

/-- The fuel `size - pos + 1` is sufficient for the `parse_attrs` loop: every
iteration strictly advances the cursor. -/
theorem parseAttrsLoop_isSome (d : List Nat) : ∀ (fuel pos : Nat) (attrs : List AttrEntry),
    d.length - pos < fuel → (parseAttrsLoop d fuel pos attrs).isSome = true := by
  intro fuel
  induction fuel with
  | zero => intro pos attrs h; omega
  | succ f ih =>
    intro pos attrs h
    rw [parseAttrsLoop]
    dsimp only
    by_cases hp : pos < d.length
    rotate_left
    · rw [if_neg hp]; rfl
    rw [if_pos hp]
    have hA := skip_spaces_ge d pos
    have hA2 := skip_spaces_le d pos (by omega)
    by_cases h1 : skip_spaces d pos ≥ d.length
    · rw [if_pos h1]; rfl
    rw [if_neg h1]
    by_cases h2 : d.getD (skip_spaces d pos) 0 = 62
    · rw [if_pos h2]; rfl
    rw [if_neg h2]
    by_cases h3 : d.getD (skip_spaces d pos) 0 = 47
    · rw [if_pos h3]; rfl
    rw [if_neg h3]
    have hB := scanAttrName_ge d (skip_spaces d pos)
    have hC := skip_spaces_ge d (scanAttrName d (skip_spaces d pos))
    by_cases h4 : skip_spaces d (scanAttrName d (skip_spaces d pos)) ≥ d.length ∨
        d.getD (skip_spaces d (scanAttrName d (skip_spaces d pos))) 0 ≠ 61
    · rw [if_pos h4]
      apply ih
      rcases h4 with h4a | h4b
      · omega
      · rcases Nat.eq_or_lt_of_le hB with heqB | hltB
        · rcases Nat.eq_or_lt_of_le hC with heqC | hltC
          · -- name scan and the following skip both stood still: the byte at
            -- `skip_spaces d pos` must be `=` (61), contradicting h4b
            exfalso
            rcases scanAttrName_result d (skip_spaces d pos) with hst | hst
            · omega
            · rw [← heqB] at hst
              rcases skip_spaces_result d pos with hsp | hsp
              · omega
              · rcases hst with h61 | hspc | h62 | h47
                · rw [← heqC, ← heqB] at h4b
                  exact h4b h61
                · rw [hsp] at hspc
                  exact Bool.false_ne_true hspc
                · exact h2 h62
                · exact h3 h47
          · omega
        · omega
    rw [if_neg h4]
    push_neg at h4
    have hD := skip_spaces_ge d (skip_spaces d (scanAttrName d (skip_spaces d pos)) + 1)
    by_cases h5 : skip_spaces d (skip_spaces d (scanAttrName d (skip_spaces d pos)) + 1) ≥
        d.length
    · rw [if_pos h5]; rfl
    rw [if_neg h5]
    by_cases h6 : d.getD (skip_spaces d (skip_spaces d (scanAttrName d (skip_spaces d pos)) + 1)) 0 ≠ 34 ∧
        d.getD (skip_spaces d (skip_spaces d (scanAttrName d (skip_spaces d pos)) + 1)) 0 ≠ 39
    · rw [if_pos h6]
      apply ih
      omega
    rw [if_neg h6]
    cases hm : memchr d
        (d.getD (skip_spaces d (skip_spaces d (scanAttrName d (skip_spaces d pos)) + 1)) 0)
        (skip_spaces d (skip_spaces d (scanAttrName d (skip_spaces d pos)) + 1) + 1)
        (d.length - (skip_spaces d (skip_spaces d (scanAttrName d (skip_spaces d pos)) + 1) + 1)) with
    | none => rfl
    | some val_end =>
      simp only [hm]
      have hE := memchr_ge hm
      have hF := memchr_lt_add hm
      split
      · apply ih
        omega
      · apply ih
        omega

/-- Cursor bounds for the `parse_attrs` loop. -/
theorem parseAttrsLoop_pos (d : List Nat) : ∀ (fuel pos : Nat) (attrs : List AttrEntry)
    (res : AttrResult), pos ≤ d.length →
    parseAttrsLoop d fuel pos attrs = some res →
    pos ≤ res.pos ∧ res.pos ≤ d.length := by
  intro fuel
  induction fuel with
  | zero => intro pos attrs res h heq; simp [parseAttrsLoop] at heq
  | succ f ih =>
    intro pos attrs res h heq
    rw [parseAttrsLoop] at heq
    dsimp only at heq
    by_cases hp : pos < d.length
    rotate_left
    · rw [if_neg hp] at heq
      obtain rfl : (⟨pos, attrs, false⟩ : AttrResult) = res := Option.some.inj heq
      exact ⟨Nat.le_refl _, h⟩
    rw [if_pos hp] at heq
    have hA := skip_spaces_ge d pos
    have hA2 := skip_spaces_le d pos (by omega)
    by_cases h1 : skip_spaces d pos ≥ d.length
    · rw [if_pos h1] at heq
      obtain rfl := Option.some.inj heq
      refine ⟨?_, ?_⟩ <;> dsimp only <;> omega
    rw [if_neg h1] at heq
    by_cases h2 : d.getD (skip_spaces d pos) 0 = 62
    · rw [if_pos h2] at heq
      obtain rfl := Option.some.inj heq
      refine ⟨?_, ?_⟩ <;> dsimp only <;> omega
    rw [if_neg h2] at heq
    by_cases h3 : d.getD (skip_spaces d pos) 0 = 47
    · rw [if_pos h3] at heq
      obtain rfl := Option.some.inj heq
      refine ⟨?_, ?_⟩
      · dsimp only
        split
        · omega
        · omega
      · dsimp only
        split
        · omega
        · omega
    rw [if_neg h3] at heq
    have hB := scanAttrName_ge d (skip_spaces d pos)
    have hB2 := scanAttrName_le d (skip_spaces d pos) (by omega)
    have hC := skip_spaces_ge d (scanAttrName d (skip_spaces d pos))
    have hC2 := skip_spaces_le d (scanAttrName d (skip_spaces d pos)) (by omega)
    by_cases h4 : skip_spaces d (scanAttrName d (skip_spaces d pos)) ≥ d.length ∨
        d.getD (skip_spaces d (scanAttrName d (skip_spaces d pos))) 0 ≠ 61
    · rw [if_pos h4] at heq
      have := ih _ attrs res (by omega) heq
      exact ⟨by omega, this.2⟩
    rw [if_neg h4] at heq
    push_neg at h4
    have hD := skip_spaces_ge d (skip_spaces d (scanAttrName d (skip_spaces d pos)) + 1)
    have hD2 := skip_spaces_le d (skip_spaces d (scanAttrName d (skip_spaces d pos)) + 1)
      (by omega)
    by_cases h5 : skip_spaces d (skip_spaces d (scanAttrName d (skip_spaces d pos)) + 1) ≥
        d.length
    · rw [if_pos h5] at heq
      obtain rfl := Option.some.inj heq
      refine ⟨?_, ?_⟩ <;> dsimp only <;> omega
    rw [if_neg h5] at heq
    by_cases h6 : d.getD (skip_spaces d (skip_spaces d (scanAttrName d (skip_spaces d pos)) + 1)) 0 ≠ 34 ∧
        d.getD (skip_spaces d (skip_spaces d (scanAttrName d (skip_spaces d pos)) + 1)) 0 ≠ 39
    · rw [if_pos h6] at heq
      have := ih _ attrs res (by omega) heq
      exact ⟨by omega, this.2⟩
    rw [if_neg h6] at heq
    split at heq
    · rename_i hm
      obtain rfl := Option.some.inj heq
      refine ⟨?_, ?_⟩ <;> dsimp only <;> omega
    · rename_i val_end hm
      have hE := memchr_ge hm
      have hF := memchr_lt_add hm
      split at heq
      · have := ih _ attrs res (by omega) heq
        exact ⟨by omega, this.2⟩
      · have := ih _ _ res (by omega) heq
        exact ⟨by omega, this.2⟩

theorem parse_attrs_pos (d : List Nat) (pos : Nat) (h : pos ≤ d.length) :
    pos ≤ (parse_attrs d pos).pos ∧ (parse_attrs d pos).pos ≤ d.length := by
  rw [parse_attrs]
  have hs := parseAttrsLoop_isSome d (d.length - pos + 1) pos [] (by omega)
  cases hq : parseAttrsLoop d (d.length - pos + 1) pos [] with
  | none => rw [hq] at hs; simp at hs
  | some res =>
    simp only [hq, Option.getD_some]
    exact parseAttrsLoop_pos d _ pos [] res h hq

/-! ### Claim C9: namespace-declaration attributes never reach the table -/

/-- The C skip-condition (`nlen ≥ 5`, first five bytes `xmlns`, and either
`nlen = 5` or byte 5 is a colon) is implied by "name is `xmlns` or starts with
`xmlns:`"; so when the skip-condition fails, the kept name is neither. -/
theorem xmlns_skip_iff (nm : List Nat)
    (h : ¬(5 ≤ nm.length ∧ nm.take 5 = [120, 109, 108, 110, 115] ∧
      (nm.length = 5 ∨ nm.getD 5 0 = 58))) :
    ¬(nm = [120, 109, 108, 110, 115] ∨ [120, 109, 108, 110, 115, 58] <+: nm) := by
  intro hor
  apply h
  rcases hor with h1 | h2
  · subst h1
    exact ⟨by decide, by decide, Or.inl (by decide)⟩
  · obtain ⟨t, ht⟩ := h2
    subst ht
    refine ⟨by simp, ?_, Or.inr ?_⟩
    · rfl
    · rfl

theorem attrs_extend (attrs : List AttrEntry) (entry : AttrEntry)
    (hP : ∀ a ∈ attrs, ¬(a.name = [120, 109, 108, 110, 115] ∨
      [120, 109, 108, 110, 115, 58] <+: a.name))
    (hE : ¬(entry.name = [120, 109, 108, 110, 115] ∨
      [120, 109, 108, 110, 115, 58] <+: entry.name)) :
    ∀ a ∈ (if attrs.length < 32 then attrs ++ [entry] else attrs),
      ¬(a.name = [120, 109, 108, 110, 115] ∨
        [120, 109, 108, 110, 115, 58] <+: a.name) := by
  split
  · intro a ha
    rcases List.mem_append.mp ha with hm | hm
    · exact hP a hm
    · obtain rfl := List.mem_singleton.mp hm
      exact hE
  · exact hP

theorem parseAttrsLoop_xmlns (d : List Nat) : ∀ (fuel pos : Nat) (attrs : List AttrEntry)
    (res : AttrResult),
    (∀ a ∈ attrs, ¬(a.name = [120, 109, 108, 110, 115] ∨
      [120, 109, 108, 110, 115, 58] <+: a.name)) →
    parseAttrsLoop d fuel pos attrs = some res →
    ∀ a ∈ res.attrs, ¬(a.name = [120, 109, 108, 110, 115] ∨
      [120, 109, 108, 110, 115, 58] <+: a.name) := by
  intro fuel
  induction fuel with
  | zero => intro pos attrs res hP heq; simp [parseAttrsLoop] at heq
  | succ f ih =>
    intro pos attrs res hP heq
    rw [parseAttrsLoop] at heq
    dsimp only at heq
    by_cases hp : pos < d.length
    rotate_left
    · rw [if_neg hp] at heq
      obtain rfl := Option.some.inj heq
      exact hP
    rw [if_pos hp] at heq
    by_cases h1 : skip_spaces d pos ≥ d.length
    · rw [if_pos h1] at heq
      obtain rfl := Option.some.inj heq
      exact hP
    rw [if_neg h1] at heq
    by_cases h2 : d.getD (skip_spaces d pos) 0 = 62
    · rw [if_pos h2] at heq
      obtain rfl := Option.some.inj heq
      exact hP
    rw [if_neg h2] at heq
    by_cases h3 : d.getD (skip_spaces d pos) 0 = 47
    · rw [if_pos h3] at heq
      obtain rfl := Option.some.inj heq
      exact hP
    rw [if_neg h3] at heq
    by_cases h4 : skip_spaces d (scanAttrName d (skip_spaces d pos)) ≥ d.length ∨
        d.getD (skip_spaces d (scanAttrName d (skip_spaces d pos))) 0 ≠ 61
    · rw [if_pos h4] at heq
      exact ih _ attrs res hP heq
    rw [if_neg h4] at heq
    by_cases h5 : skip_spaces d (skip_spaces d (scanAttrName d (skip_spaces d pos)) + 1) ≥
        d.length
    · rw [if_pos h5] at heq
      obtain rfl := Option.some.inj heq
      exact hP
    rw [if_neg h5] at heq
    by_cases h6 : d.getD (skip_spaces d (skip_spaces d (scanAttrName d (skip_spaces d pos)) + 1)) 0 ≠ 34 ∧
        d.getD (skip_spaces d (skip_spaces d (scanAttrName d (skip_spaces d pos)) + 1)) 0 ≠ 39
    · rw [if_pos h6] at heq
      exact ih _ attrs res hP heq
    rw [if_neg h6] at heq
    split at heq
    · rename_i hm
      obtain rfl := Option.some.inj heq
      exact hP
    · rename_i val_end hm
      split at heq
      · exact ih _ attrs res hP heq
      · rename_i hxm
        exact ih _ _ res (attrs_extend attrs _ hP (xmlns_skip_iff _ hxm)) heq

theorem parse_attrs_xmlns (d : List Nat) (pos : Nat) :
    ∀ a ∈ (parse_attrs d pos).attrs,
      ¬(a.name = [120, 109, 108, 110, 115] ∨
        [120, 109, 108, 110, 115, 58] <+: a.name) := by
  rw [parse_attrs]
  cases hq : parseAttrsLoop d (d.length - pos + 1) pos [] with
  | none =>
    simp only [Option.getD_none]
    intro a ha
    simp at ha
  | some res =>
    simp only [Option.getD_some]
    exact parseAttrsLoop_xmlns d _ pos [] res (by intro a ha; simp at ha) hq

theorem endTagStep_attrs (r : FastReader) : (endTagStep r).2.attrs = r.attrs := by
  rw [endTagStep]
  cases memchr r.data 62 (r.pos + 2) (r.data.length - (r.pos + 2)) <;> rfl

theorem startTagStep_attrs (r : FastReader) :
    (startTagStep r).2.attrs =
      (parse_attrs r.data (scanElemName r.data (r.pos + 1))).attrs := rfl

theorem readLoop_attrs : ∀ (fuel : Nat) (r : FastReader) (b : Bool) (r2 : FastReader),
    readLoop fuel r = some (b, r2) →
    ∀ a ∈ r2.attrs, a ∈ r.attrs ∨
      ¬(a.name = [120, 109, 108, 110, 115] ∨
        [120, 109, 108, 110, 115, 58] <+: a.name) := by
  intro fuel
  induction fuel with
  | zero => intro r b r2 heq; simp [readLoop] at heq
  | succ f ih =>
    intro r b r2 heq
    rw [readLoop] at heq
    dsimp only at heq
    by_cases hp : r.pos ≥ r.data.length
    · rw [if_pos hp] at heq
      have hr : r = r2 := congrArg Prod.snd (Option.some.inj heq)
      rw [← hr]
      intro a ha
      exact Or.inl ha
    rw [if_neg hp] at heq
    by_cases h60 : r.data.getD r.pos 0 = 60
    rotate_left
    · rw [if_neg h60] at heq
      split at heq
      · have h7 := ih _ _ _ heq
        exact h7
      · have hr : (textStep r _).2 = r2 := congrArg Prod.snd (Option.some.inj heq)
        rw [← hr]
        intro a ha
        exact Or.inl ha
    rw [if_pos h60] at heq
    by_cases hp1 : r.pos + 1 ≥ r.data.length
    · rw [if_pos hp1] at heq
      have hr : ({ r with pos := r.pos + 1 } : FastReader) = r2 :=
        congrArg Prod.snd (Option.some.inj heq)
      rw [← hr]
      intro a ha
      exact Or.inl ha
    rw [if_neg hp1] at heq
    by_cases hc47 : r.data.getD (r.pos + 1) 0 = 47
    · rw [if_pos hc47] at heq
      have hr : (endTagStep r).2 = r2 := congrArg Prod.snd (Option.some.inj heq)
      rw [← hr, endTagStep_attrs]
      intro a ha
      exact Or.inl ha
    rw [if_neg hc47] at heq
    split at heq
    · have h7 := ih _ _ _ heq
      exact h7
    split at heq
    · have h7 := ih _ _ _ heq
      exact h7
    split at heq
    · have h7 := ih _ _ _ heq
      exact h7
    split at heq
    · have h7 := ih _ _ _ heq
      exact h7
    · have hr : (startTagStep r).2 = r2 := congrArg Prod.snd (Option.some.inj heq)
      rw [← hr, startTagStep_attrs]
      intro a ha
      exact Or.inr (parse_attrs_xmlns r.data (scanElemName r.data (r.pos + 1)) a ha)

/-- C9.  No entry of any reported attribute table is named `xmlns` or starts
with `xmlns:` (such namespace declarations are skipped), while a name that
merely begins with the letters `xmlns` followed by other characters is kept:
on `<t xmlnsfoo="1"/>` the attribute `xmlnsfoo="1"` is reported. -/
theorem reader_attrs_no_xmlns :
    (∀ (r : FastReader) (b : Bool) (r2 : FastReader), reader_read_internal r = (b, r2) →
      ∀ a ∈ r2.attrs, ¬(a.name = [120, 109, 108, 110, 115] ∨
        [120, 109, 108, 110, 115, 58] <+: a.name)) ∧
    nodesOf [60, 116, 32, 120, 109, 108, 110, 115, 102, 111, 111, 61, 34, 49, 34, 47, 62] =
      [⟨1, some [116], 0, [], true,
        [⟨[120, 109, 108, 110, 115, 102, 111, 111], [49], false⟩]⟩] := by
  constructor
  · intro r b r2 heq
    rw [reader_read_internal] at heq
    cases hq : readLoop (r.data.length - r.pos + 1)
        { r with text := [], text_has_entity := false, attrs := [] } with
    | none =>
      rw [hq, Option.getD_none] at heq
      have hr : ({ r with text := [], text_has_entity := false, attrs := [] } : FastReader) = r2 :=
        congrArg Prod.snd heq
      intro a ha
      rw [← hr] at ha
      simp at ha
    | some p =>
      rw [hq, Option.getD_some] at heq
      have hr : p.2 = r2 := congrArg Prod.snd heq
      intro a ha
      rw [← hr] at ha
      have hq2 : readLoop (r.data.length - r.pos + 1)
          { r with text := [], text_has_entity := false, attrs := [] } = some (p.1, p.2) := by
        rw [hq]
      rcases readLoop_attrs _ _ p.1 p.2 hq2 a ha with hin | hok
      · simp at hin
      · exact hok
  · decide

/-- Witness for C9: the kept attribute name `xmlnsfoo` from the concrete read
of `<t xmlnsfoo="1"/>` is neither `xmlns` nor prefixed by `xmlns:`. -/
theorem reader_attrs_no_xmlns_witness :
    ¬(([120, 109, 108, 110, 115, 102, 111, 111] : List Nat) = [120, 109, 108, 110, 115] ∨
      [120, 109, 108, 110, 115, 58] <+: [120, 109, 108, 110, 115, 102, 111, 111]) :=
  reader_attrs_no_xmlns.1
    (initReader [60, 116, 32, 120, 109, 108, 110, 115, 102, 111, 111, 61, 34, 49, 34, 47, 62])
    (reader_read_internal (initReader
      [60, 116, 32, 120, 109, 108, 110, 115, 102, 111, 111, 61, 34, 49, 34, 47, 62])).1
    (reader_read_internal (initReader
      [60, 116, 32, 120, 109, 108, 110, 115, 102, 111, 111, 61, 34, 49, 34, 47, 62])).2
    rfl ⟨[120, 109, 108, 110, 115, 102, 111, 111], [49], false⟩ (by decide)

/-! ### Step lemmas for the three node-producing branches of the scan loop -/

theorem startTagStep_fst (r : FastReader) : (startTagStep r).1 = true := rfl

theorem startTagStep_data (r : FastReader) : (startTagStep r).2.data = r.data := rfl

theorem textStep_fst (r : FastReader) (e : Nat) : (textStep r e).1 = true := rfl

theorem textStep_data (r : FastReader) (e : Nat) : (textStep r e).2.data = r.data := rfl

theorem textStep_pos (r : FastReader) (e : Nat) : (textStep r e).2.pos = e := rfl

theorem endTagStep_spec (r : FastReader) (h : r.pos + 1 < r.data.length) :
    (endTagStep r).2.data = r.data ∧ r.pos < (endTagStep r).2.pos ∧
    (endTagStep r).2.pos ≤ r.data.length ∧
    ((endTagStep r).1 = false → (endTagStep r).2.pos = r.data.length) := by
  rw [endTagStep]
  dsimp only
  split
  · rename_i hm
    refine ⟨rfl, ?_, ?_, fun _ => rfl⟩ <;> dsimp only <;> omega
  · rename_i gt hm
    have h1 := memchr_ge hm
    have h2 := memchr_lt_add hm
    refine ⟨rfl, ?_, ?_, fun hb => by simp at hb⟩ <;> dsimp only <;> omega

theorem startTagStep_pos (r : FastReader) (h : r.pos < r.data.length) :
    r.pos < (startTagStep r).2.pos ∧ (startTagStep r).2.pos ≤ r.data.length := by
  rw [startTagStep]
  dsimp only
  have hN1 := scanElemName_ge r.data (r.pos + 1)
  have hN2 := scanElemName_le r.data (r.pos + 1) (by omega)
  have hP := parse_attrs_pos r.data (scanElemName r.data (r.pos + 1)) (by omega)
  split
  · split
    · rename_i hpk
      split
      · constructor <;> dsimp only <;> omega
      · rename_i gt hm
        have h1 := memchr_ge hm
        have h2 := memchr_lt_add hm
        split
        · constructor <;> dsimp only <;> omega
        · constructor <;> dsimp only <;> omega
    · constructor <;> dsimp only <;> omega
  · constructor <;> dsimp only <;> omega

theorem endTagStep_depth (r : FastReader) (h : 0 ≤ r.depth) :
    0 ≤ (endTagStep r).2.depth ∧
    ((endTagStep r).1 = true → 0 ≤ (endTagStep r).2.report_depth) := by
  rw [endTagStep]
  dsimp only
  split
  · rename_i hm
    exact ⟨h, fun hb => by simp at hb⟩
  · rename_i gt hm
    constructor
    · dsimp only
      split <;> omega
    · intro hb
      dsimp only
      split <;> omega

theorem startTagStep_depth (r : FastReader) (h : 0 ≤ r.depth) :
    0 ≤ (startTagStep r).2.depth ∧ 0 ≤ (startTagStep r).2.report_depth := by
  rw [startTagStep]
  dsimp only
  constructor
  · split <;> omega
  · exact h

/-! ### The scan loop: fuel sufficiency and cursor invariants -/

/-- The fuel `size - pos + 1` always suffices for the `again` loop of
`reader_read_internal`: every pass that does not return strictly advances the
cursor. -/
theorem readLoop_isSome : ∀ (fuel : Nat) (r : FastReader),
    r.data.length - r.pos < fuel → (readLoop fuel r).isSome = true := by
  intro fuel
  induction fuel with
  | zero => intro r h; omega
  | succ f ih =>
    intro r h
    rw [readLoop]
    dsimp only
    by_cases hp : r.pos ≥ r.data.length
    · rw [if_pos hp]; rfl
    rw [if_neg hp]
    by_cases h60 : r.data.getD r.pos 0 = 60
    rotate_left
    · rw [if_neg h60]
      cases hm : memchr r.data 60 r.pos (r.data.length - r.pos) with
      | none =>
        simp only [hm]
        split
        · apply ih
          dsimp only
          omega
        · rfl
      | some lt =>
        simp only [hm]
        have hlt1 := memchr_gt_of_ne hm h60
        have hlt2 := memchr_lt_add hm
        split
        · apply ih
          dsimp only
          omega
        · rfl
    rw [if_pos h60]
    by_cases hp1 : r.pos + 1 ≥ r.data.length
    · rw [if_pos hp1]; rfl
    rw [if_neg hp1]
    by_cases hc47 : r.data.getD (r.pos + 1) 0 = 47
    · rw [if_pos hc47]; rfl
    rw [if_neg hc47]
    by_cases hcm : r.data.getD (r.pos + 1) 0 = 33 ∧ r.pos + 3 < r.data.length ∧
        r.data.getD (r.pos + 2) 0 = 45 ∧ r.data.getD (r.pos + 3) 0 = 45
    · rw [if_pos hcm]
      apply ih
      have hge := skip_comment_ge r.data (r.pos + 4) (by omega)
      dsimp only
      omega
    rw [if_neg hcm]
    by_cases hcd : r.data.getD (r.pos + 1) 0 = 33 ∧ r.pos + 8 < r.data.length ∧
        slice r.data (r.pos + 1) 8 = [33, 91, 67, 68, 65, 84, 65, 91]
    · rw [if_pos hcd]
      apply ih
      have hge := skip_cdata_ge r.data (r.pos + 9) (by omega)
      dsimp only
      omega
    rw [if_neg hcd]
    by_cases hdt : r.data.getD (r.pos + 1) 0 = 33 ∧ r.pos + 8 < r.data.length ∧
        slice r.data (r.pos + 2) 7 = [68, 79, 67, 84, 89, 80, 69]
    · rw [if_pos hdt]
      apply ih
      have hge := skipDoctypeF_ge r.data (r.data.length - (r.pos + 9)) (r.pos + 9) 0
      dsimp only
      rw [skip_doctype]
      omega
    rw [if_neg hdt]
    by_cases hpi : r.data.getD (r.pos + 1) 0 = 63
    · rw [if_pos hpi]
      apply ih
      have hge := skip_pi_ge r.data (r.pos + 2) (by omega)
      dsimp only
      omega
    rw [if_neg hpi]
    rfl

/-- The cursor invariants of one pass of the scan loop: the buffer is
untouched, the cursor never moves backwards and never leaves the buffer, a
successful read strictly advances it, and a failed read leaves it at EOF. -/
theorem readLoop_pos : ∀ (fuel : Nat) (r : FastReader) (b : Bool) (r2 : FastReader),
    readLoop fuel r = some (b, r2) →
    r2.data = r.data ∧ r.pos ≤ r2.pos ∧
    (r.pos ≤ r.data.length → r2.pos ≤ r.data.length) ∧
    (b = true → r.pos < r2.pos) ∧
    (b = false → r.pos ≤ r.data.length → r2.pos = r.data.length) := by
  intro fuel
  induction fuel with
  | zero => intro r b r2 heq; simp [readLoop] at heq
  | succ f ih =>
    intro r b r2 heq
    rw [readLoop] at heq
    dsimp only at heq
    by_cases hp : r.pos ≥ r.data.length
    · rw [if_pos hp] at heq
      have hfst : false = b := congrArg Prod.fst (Option.some.inj heq)
      have hsnd : r = r2 := congrArg Prod.snd (Option.some.inj heq)
      rw [← hsnd, ← hfst]
      refine ⟨rfl, Nat.le_refl _, fun hh => hh, ?_, ?_⟩
      · intro ht
        cases ht
      · intro _ hh
        omega
    rw [if_neg hp] at heq
    by_cases h60 : r.data.getD r.pos 0 = 60
    rotate_left
    · rw [if_neg h60] at heq
      cases hm : memchr r.data 60 r.pos (r.data.length - r.pos) with
      | none =>
        simp only [hm] at heq
        split at heq
        · have h7 := ih _ _ _ heq
          dsimp only at h7
          obtain ⟨ha, hb2, hc, hd, he⟩ := h7
          refine ⟨ha, by omega, fun hh => hc (by omega), fun ht => ?_, fun hf hh => he hf (by omega)⟩
          have := hd ht
          omega
        · have hfst : true = b := congrArg Prod.fst (Option.some.inj heq)
          have hsnd : (textStep r r.data.length).2 = r2 := congrArg Prod.snd (Option.some.inj heq)
          rw [← hsnd, ← hfst]
          rw [textStep_data, textStep_pos]
          refine ⟨rfl, by omega, fun hh => Nat.le_refl _, ?_, ?_⟩
          · intro _
            omega
          · intro hf
            cases hf
      | some lt =>
        simp only [hm] at heq
        have hlt1 := memchr_gt_of_ne hm h60
        have hlt2 := memchr_lt_add hm
        split at heq
        · have h7 := ih _ _ _ heq
          dsimp only at h7
          obtain ⟨ha, hb2, hc, hd, he⟩ := h7
          refine ⟨ha, by omega, fun hh => hc (by omega), fun ht => ?_, fun hf hh => he hf (by omega)⟩
          have := hd ht
          omega
        · have hfst : true = b := congrArg Prod.fst (Option.some.inj heq)
          have hsnd : (textStep r lt).2 = r2 := congrArg Prod.snd (Option.some.inj heq)
          rw [← hsnd, ← hfst]
          rw [textStep_data, textStep_pos]
          refine ⟨rfl, by omega, ?_, ?_, ?_⟩
          · intro hh
            omega
          · intro _
            omega
          · intro hf
            cases hf
    rw [if_pos h60] at heq
    by_cases hp1 : r.pos + 1 ≥ r.data.length
    · rw [if_pos hp1] at heq
      have hfst : false = b := congrArg Prod.fst (Option.some.inj heq)
      have hsnd : ({ r with pos := r.pos + 1 } : FastReader) = r2 := congrArg Prod.snd (Option.some.inj heq)
      rw [← hsnd, ← hfst]
      refine ⟨rfl, ?_, ?_, ?_, ?_⟩
      · dsimp only
        omega
      · intro hh
        dsimp only
        omega
      · intro ht
        cases ht
      · intro _ hh
        dsimp only
        omega
    rw [if_neg hp1] at heq
    by_cases hc47 : r.data.getD (r.pos + 1) 0 = 47
    · rw [if_pos hc47] at heq
      have hfst : (endTagStep r).1 = b := congrArg Prod.fst (Option.some.inj heq)
      have hsnd : (endTagStep r).2 = r2 := congrArg Prod.snd (Option.some.inj heq)
      have hspec := endTagStep_spec r (by omega)
      rw [hsnd] at hspec
      refine ⟨hspec.1, by omega, fun hh => hspec.2.2.1, fun ht => hspec.2.1, ?_⟩
      intro hf hh
      exact hspec.2.2.2 (by rw [hfst]; exact hf)
    rw [if_neg hc47] at heq
    by_cases hcm : r.data.getD (r.pos + 1) 0 = 33 ∧ r.pos + 3 < r.data.length ∧
        r.data.getD (r.pos + 2) 0 = 45 ∧ r.data.getD (r.pos + 3) 0 = 45
    · rw [if_pos hcm] at heq
      have hge := skip_comment_ge r.data (r.pos + 4) (by omega)
      have hle := skip_comment_le r.data (r.pos + 4)
      have h7 := ih _ _ _ heq
      dsimp only at h7
      obtain ⟨ha, hb2, hc, hd, he⟩ := h7
      refine ⟨ha, by omega, fun hh => hc (by omega), fun ht => ?_, fun hf hh => he hf (by omega)⟩
      have := hd ht
      omega
    rw [if_neg hcm] at heq
    by_cases hcd : r.data.getD (r.pos + 1) 0 = 33 ∧ r.pos + 8 < r.data.length ∧
        slice r.data (r.pos + 1) 8 = [33, 91, 67, 68, 65, 84, 65, 91]
    · rw [if_pos hcd] at heq
      have hge := skip_cdata_ge r.data (r.pos + 9) (by omega)
      have hle := skip_cdata_le r.data (r.pos + 9)
      have h7 := ih _ _ _ heq
      dsimp only at h7
      obtain ⟨ha, hb2, hc, hd, he⟩ := h7
      refine ⟨ha, by omega, fun hh => hc (by omega), fun ht => ?_, fun hf hh => he hf (by omega)⟩
      have := hd ht
      omega
    rw [if_neg hcd] at heq
    by_cases hdt : r.data.getD (r.pos + 1) 0 = 33 ∧ r.pos + 8 < r.data.length ∧
        slice r.data (r.pos + 2) 7 = [68, 79, 67, 84, 89, 80, 69]
    · rw [if_pos hdt] at heq
      have hge := skip_doctype_ge r.data (r.pos + 9) 0
      have hle := skip_doctype_le r.data (r.pos + 9) 0 (by omega)
      have h7 := ih _ _ _ heq
      dsimp only at h7
      obtain ⟨ha, hb2, hc, hd, he⟩ := h7
      refine ⟨ha, by omega, fun hh => hc (by omega), fun ht => ?_, fun hf hh => he hf (by omega)⟩
      have := hd ht
      omega
    rw [if_neg hdt] at heq
    by_cases hpi : r.data.getD (r.pos + 1) 0 = 63
    · rw [if_pos hpi] at heq
      have hge := skip_pi_ge r.data (r.pos + 2) (by omega)
      have hle := skip_pi_le r.data (r.pos + 2)
      have h7 := ih _ _ _ heq
      dsimp only at h7
      obtain ⟨ha, hb2, hc, hd, he⟩ := h7
      refine ⟨ha, by omega, fun hh => hc (by omega), fun ht => ?_, fun hf hh => he hf (by omega)⟩
      have := hd ht
      omega
    rw [if_neg hpi] at heq
    have hfst : (startTagStep r).1 = b := congrArg Prod.fst (Option.some.inj heq)
    have hsnd : (startTagStep r).2 = r2 := congrArg Prod.snd (Option.some.inj heq)
    have hspec := startTagStep_pos r (by omega)
    rw [hsnd] at hspec
    have hdata := startTagStep_data r
    rw [hsnd] at hdata
    refine ⟨hdata, by omega, fun hh => by omega, fun ht => by omega, fun hf hh => ?_⟩
    rw [← hfst, startTagStep_fst] at hf
    cases hf

/-- Depth invariants of one pass of the scan loop: starting from a
non-negative depth, the depth stays non-negative, and a successful read
reports a non-negative depth. -/
theorem readLoop_depth : ∀ (fuel : Nat) (r : FastReader) (b : Bool) (r2 : FastReader),
    readLoop fuel r = some (b, r2) → 0 ≤ r.depth →
    0 ≤ r2.depth ∧ (b = true → 0 ≤ r2.report_depth) := by
  intro fuel
  induction fuel with
  | zero => intro r b r2 heq hd; simp [readLoop] at heq
  | succ f ih =>
    intro r b r2 heq hd
    rw [readLoop] at heq
    dsimp only at heq
    by_cases hp : r.pos ≥ r.data.length
    · rw [if_pos hp] at heq
      have hfst : false = b := congrArg Prod.fst (Option.some.inj heq)
      have hsnd : r = r2 := congrArg Prod.snd (Option.some.inj heq)
      rw [← hsnd, ← hfst]
      exact ⟨hd, fun ht => by cases ht⟩
    rw [if_neg hp] at heq
    by_cases h60 : r.data.getD r.pos 0 = 60
    rotate_left
    · rw [if_neg h60] at heq
      split at heq
      · have h7 := ih _ _ _ heq hd
        exact h7
      · have hfst : true = b := congrArg Prod.fst (Option.some.inj heq)
        have hsnd : _ = r2 := congrArg Prod.snd (Option.some.inj heq)
        rw [← hsnd, ← hfst]
        exact ⟨hd, fun _ => hd⟩
    rw [if_pos h60] at heq
    by_cases hp1 : r.pos + 1 ≥ r.data.length
    · rw [if_pos hp1] at heq
      have hfst : false = b := congrArg Prod.fst (Option.some.inj heq)
      have hsnd : ({ r with pos := r.pos + 1 } : FastReader) = r2 := congrArg Prod.snd (Option.some.inj heq)
      rw [← hsnd, ← hfst]
      exact ⟨hd, fun ht => by cases ht⟩
    rw [if_neg hp1] at heq
    by_cases hc47 : r.data.getD (r.pos + 1) 0 = 47
    · rw [if_pos hc47] at heq
      have hfst : (endTagStep r).1 = b := congrArg Prod.fst (Option.some.inj heq)
      have hsnd : (endTagStep r).2 = r2 := congrArg Prod.snd (Option.some.inj heq)
      have hspec := endTagStep_depth r hd
      rw [hsnd] at hspec
      exact ⟨hspec.1, fun ht => hspec.2 (by rw [hfst]; exact ht)⟩
    rw [if_neg hc47] at heq
    split at heq
    · have h7 := ih _ _ _ heq hd
      exact h7
    split at heq
    · have h7 := ih _ _ _ heq hd
      exact h7
    split at heq
    · have h7 := ih _ _ _ heq hd
      exact h7
    split at heq
    · have h7 := ih _ _ _ heq hd
      exact h7
    · have hfst : (startTagStep r).1 = b := congrArg Prod.fst (Option.some.inj heq)
      have hsnd : (startTagStep r).2 = r2 := congrArg Prod.snd (Option.some.inj heq)
      have hspec := startTagStep_depth r hd
      rw [hsnd] at hspec
      exact ⟨hspec.1, fun _ => hspec.2⟩

/-! ### The total `read()` wrapper: cursor and depth facts -/

theorem reader_read_spec (r : FastReader) (h : r.pos ≤ r.data.length) :
    (reader_read_internal r).2.data = r.data ∧
    r.pos ≤ (reader_read_internal r).2.pos ∧
    (reader_read_internal r).2.pos ≤ r.data.length ∧
    ((reader_read_internal r).1 = true → r.pos < (reader_read_internal r).2.pos) ∧
    ((reader_read_internal r).1 = false → (reader_read_internal r).2.pos = r.data.length) := by
  rw [reader_read_internal]
  have hs := readLoop_isSome (r.data.length - r.pos + 1)
    { r with text := [], text_has_entity := false, attrs := [] } (by dsimp only; omega)
  cases hq : readLoop (r.data.length - r.pos + 1)
      { r with text := [], text_has_entity := false, attrs := [] } with
  | none => rw [hq] at hs; simp at hs
  | some p =>
    rw [Option.getD_some]
    have h7 := readLoop_pos _ _ p.1 p.2 (by rw [hq])
    dsimp only at h7
    obtain ⟨ha, hb, hc, hd, he⟩ := h7
    exact ⟨ha, hb, hc h, hd, fun hf => he hf h⟩

theorem reader_read_depth (r : FastReader) (h : 0 ≤ r.depth) :
    0 ≤ (reader_read_internal r).2.depth ∧
    ((reader_read_internal r).1 = true → 0 ≤ (reader_read_internal r).2.report_depth) := by
  rw [reader_read_internal]
  cases hq : readLoop (r.data.length - r.pos + 1)
      { r with text := [], text_has_entity := false, attrs := [] } with
  | none =>
    rw [Option.getD_none]
    exact ⟨h, fun ht => by cases ht⟩
  | some p =>
    rw [Option.getD_some]
    exact readLoop_depth _
      { r with text := [], text_has_entity := false, attrs := [] } p.1 p.2 (by rw [hq]) h

theorem reader_read_at_end (r : FastReader) (h : r.data.length ≤ r.pos) :
    (reader_read_internal r).1 = false := by
  rw [reader_read_internal]
  have h0 : r.data.length - r.pos + 1 = 0 + 1 := by omega
  rw [h0, readLoop]
  rw [if_pos (by dsimp only; omega)]
  rfl

theorem advanceN_data (n : Nat) : ∀ (r : FastReader), r.pos ≤ r.data.length →
    (advanceN n r).data = r.data ∧ (advanceN n r).pos ≤ r.data.length := by
  induction n with
  | zero => intro r h; exact ⟨rfl, h⟩
  | succ m ih =>
    intro r h
    rw [advanceN]
    have hs := reader_read_spec r h
    have h7 := ih (reader_read_internal r).2 (by rw [hs.1]; exact hs.2.2.1)
    refine ⟨?_, ?_⟩
    · rw [h7.1, hs.1]
    · rw [hs.1] at h7
      exact h7.2

theorem advanceN_mono (n : Nat) : ∀ (r : FastReader), r.pos ≤ r.data.length →
    (advanceN n r).pos ≤ (advanceN (n + 1) r).pos := by
  induction n with
  | zero =>
    intro r h
    have hs := reader_read_spec r h
    exact hs.2.1
  | succ m ih =>
    intro r h
    have hs := reader_read_spec r h
    rw [advanceN]
    have := ih (reader_read_internal r).2 (by rw [hs.1]; exact hs.2.2.1)
    exact this

theorem advanceN_depth (n : Nat) : ∀ (r : FastReader), 0 ≤ r.depth →
    0 ≤ (advanceN n r).depth := by
  induction n with
  | zero => intro r h; exact h
  | succ m ih =>
    intro r h
    rw [advanceN]
    exact ih (reader_read_internal r).2 (reader_read_depth r h).1

theorem reads_reach_false : ∀ (m : Nat) (r : FastReader), r.pos ≤ r.data.length →
    r.data.length - r.pos ≤ m → (reader_read_internal (advanceN m r)).1 = false := by
  intro m
  induction m with
  | zero =>
    intro r h hm
    exact reader_read_at_end r (by omega)
  | succ k ih =>
    intro r h hm
    rw [advanceN]
    have hs := reader_read_spec r h
    cases hb : (reader_read_internal r).1 with
    | true =>
      apply ih
      · rw [hs.1]
        exact hs.2.2.1
      · rw [hs.1]
        have := hs.2.2.2.1 hb
        omega
    | false =>
      apply ih
      · rw [hs.1]
        exact hs.2.2.1
      · rw [hs.1]
        have := hs.2.2.2.2 hb
        omega

/-! ### Claim C4: termination on every input -/

/-- C4.  No input can make the reader loop forever: the canonical fuel
`size - pos + 1` always completes the `again` loop of `read()`; from any state
within the buffer, at most `size - pos + 1` reads reach `read() = false`
(even on malformed, truncated input); and every skip routine is insensitive
to extra fuel (its loop stops by itself) and stops at or before EOF. -/
theorem reader_termination :
    (∀ (r : FastReader), (readLoop (r.data.length - r.pos + 1) r).isSome = true) ∧
    (∀ (r : FastReader), r.pos ≤ r.data.length →
      (reader_read_internal (advanceN (r.data.length - r.pos) r)).1 = false) ∧
    (∀ (d : List Nat) (f pos : Nat), d.length - pos ≤ f →
      skipSpacesF d f pos = skip_spaces d pos ∧
      skipCommentF d f pos = skip_comment d pos ∧
      skipPiF d f pos = skip_pi d pos ∧
      skipCdataF d f pos = skip_cdata d pos ∧
      (∀ bd : Int, skipDoctypeF d f pos bd = skip_doctype d pos bd)) ∧
    (∀ (d : List Nat) (pos : Nat), pos ≤ d.length →
      skip_spaces d pos ≤ d.length ∧ skip_comment d pos ≤ d.length ∧
      skip_pi d pos ≤ d.length ∧ skip_cdata d pos ≤ d.length ∧
      (∀ bd : Int, skip_doctype d pos bd ≤ d.length)) := by
  refine ⟨?_, ?_, ?_, ?_⟩
  · intro r
    exact readLoop_isSome _ r (by omega)
  · intro r h
    exact reads_reach_false _ r h (Nat.le_refl _)
  · intro d f pos hf
    exact ⟨skipSpacesF_fuel d f (d.length - pos) pos hf (Nat.le_refl _),
      skipCommentF_fuel d f (d.length - pos) pos hf (Nat.le_refl _),
      skipPiF_fuel d f (d.length - pos) pos hf (Nat.le_refl _),
      skipCdataF_fuel d f (d.length - pos) pos hf (Nat.le_refl _),
      fun bd => skipDoctypeF_fuel d f (d.length - pos) pos bd hf (Nat.le_refl _)⟩
  · intro d pos h
    exact ⟨skip_spaces_le d pos h, skip_comment_le d pos, skip_pi_le d pos,
      skip_cdata_le d pos, fun bd => skip_doctype_le d pos bd h⟩

/-- Witness for C4, on the truncated input `<a`: two reads reach false, and
the comment skipper with surplus fuel agrees with its canonical run and stays
within the buffer. -/
theorem reader_termination_witness :
    (reader_read_internal (advanceN 2 (initReader [60, 97]))).1 = false ∧
    skipCommentF [60, 97] 5 0 = skip_comment [60, 97] 0 ∧
    skip_comment [60, 97] 0 ≤ [60, 97].length :=
  ⟨reader_termination.2.1 (initReader [60, 97]) (by decide),
   (reader_termination.2.2.1 [60, 97] 5 0 (by decide)).2.1,
   (reader_termination.2.2.2 [60, 97] 0 (by decide)).2.1⟩

/-! ### Claim C5: the reported depth is never negative -/

/-- C5.  From any state with non-negative depth (as every reachable state
has: the reader starts at depth 0), a `read()` keeps the depth non-negative
and, when it succeeds, reports a non-negative depth — the END_ELEMENT
decrement is floored at 0, so excess closing tags cannot drive the reported
depth negative.  The second conjunct: along every read sequence from a fresh
reader the depth stays non-negative. -/
theorem report_depth_nonneg :
    (∀ (r : FastReader) (b : Bool) (r2 : FastReader), 0 ≤ r.depth →
      reader_read_internal r = (b, r2) →
      0 ≤ r2.depth ∧ (b = true → 0 ≤ r2.report_depth)) ∧
    (∀ (d : List Nat) (n : Nat), 0 ≤ (advanceN n (initReader d)).depth) := by
  constructor
  · intro r b r2 hd heq
    have h7 := reader_read_depth r hd
    rw [heq] at h7
    exact h7
  · intro d n
    exact advanceN_depth n (initReader d) (le_refl 0)

/-- Witness for C5: the first read of `</x></x>` (excess closing tags at
depth 0) keeps the depth and the reported depth at 0. -/
theorem report_depth_nonneg_witness :
    0 ≤ (reader_read_internal (initReader [60, 47, 120, 62, 60, 47, 120, 62])).2.depth ∧
    ((reader_read_internal (initReader [60, 47, 120, 62, 60, 47, 120, 62])).1 = true →
      0 ≤ (reader_read_internal (initReader [60, 47, 120, 62, 60, 47, 120, 62])).2.report_depth) :=
  report_depth_nonneg.1 (initReader [60, 47, 120, 62, 60, 47, 120, 62])
    (reader_read_internal (initReader [60, 47, 120, 62, 60, 47, 120, 62])).1
    (reader_read_internal (initReader [60, 47, 120, 62, 60, 47, 120, 62])).2
    (by decide) rfl

/-! ### Claim C6: the cursor stays in `[0, size]` and never moves backwards -/

/-- C6.  A `read()` never changes the buffer, never moves the cursor
backwards (including across the self-closing-collapse peek, which either
advances past the matched closing tag or restores the saved position), and
never moves it past `size`; consequently along every read sequence from a
fresh reader the cursor is monotone and stays within `[0, size]`. -/
theorem cursor_monotone_bounded :
    (∀ (r : FastReader) (b : Bool) (r2 : FastReader), r.pos ≤ r.data.length →
      reader_read_internal r = (b, r2) →
      r2.data = r.data ∧ r.pos ≤ r2.pos ∧ r2.pos ≤ r.data.length) ∧
    (∀ (d : List Nat) (n : Nat),
      (advanceN n (initReader d)).pos ≤ d.length ∧
      (advanceN n (initReader d)).pos ≤ (advanceN (n + 1) (initReader d)).pos) := by
  constructor
  · intro r b r2 h heq
    have hs := reader_read_spec r h
    rw [heq] at hs
    exact ⟨hs.1, hs.2.1, hs.2.2.1⟩
  · intro d n
    have h1 := advanceN_data n (initReader d) (Nat.zero_le _)
    exact ⟨h1.2, advanceN_mono n (initReader d) (Nat.zero_le _)⟩

/-- Witness for C6: the first read of `<a/>` keeps the buffer, advances the
cursor, and stays within the 4-byte buffer. -/
theorem cursor_monotone_bounded_witness :
    (reader_read_internal (initReader [60, 97, 47, 62])).2.data =
      (initReader [60, 97, 47, 62]).data ∧
    (initReader [60, 97, 47, 62]).pos ≤
      (reader_read_internal (initReader [60, 97, 47, 62])).2.pos ∧
    (reader_read_internal (initReader [60, 97, 47, 62])).2.pos ≤
      (initReader [60, 97, 47, 62]).data.length :=
  cursor_monotone_bounded.1 (initReader [60, 97, 47, 62])
    (reader_read_internal (initReader [60, 97, 47, 62])).1
    (reader_read_internal (initReader [60, 97, 47, 62])).2
    (by decide) rfl

/-! ### Helpers for the empty-element collapse theorem (claim C2) -/

theorem isSpaceByte_eq_false {c : Nat} (h : 32 < c) : isSpaceByte c = false := by
  simp only [isSpaceByte, Bool.or_eq_false_iff, decide_eq_false_iff_not]
  omega

theorem stripNsName_subset (l : List Nat) : ∀ c ∈ stripNsName l, c ∈ l := by
  rw [stripNsName]
  split
  · intro c hc
    exact hc
  · intro c hc
    exact List.mem_of_mem_drop hc

theorem trimTrailing_eq_self (l : List Nat) (h : ∀ c ∈ l, 32 < c) :
    trimTrailing l = l := by
  rw [trimTrailing]
  cases hrev : l.reverse with
  | nil =>
    rw [List.dropWhile_nil]
    simp [List.reverse_eq_nil_iff.mp hrev]
  | cons c cs =>
    have hc : c ∈ l := by
      have hmem : c ∈ l.reverse := by
        rw [hrev]
        exact List.mem_cons_self c cs
      simpa using hmem
    rw [List.dropWhile_cons]
    rw [if_neg (by simpa using Nat.not_le.mpr (h c hc))]
    rw [← hrev, List.reverse_reverse]

theorem scanElemName_clean : ∀ (x pre post : List Nat) (s : Nat),
    (∀ c ∈ x, (isSpaceByte c || c = 62 || c = 47) = false) →
    (isSpaceByte s || s = 62 || s = 47) = true →
    scanElemName (pre ++ x ++ s :: post) pre.length = pre.length + x.length := by
  intro x
  induction x with
  | nil =>
    intro pre post s hx hs
    have hg : (pre ++ [] ++ s :: post).getD pre.length 0 = s := by
      have h0 := getD_append_add 0 pre (s :: post) 0
      simpa using h0
    rw [scanElemName_stop _ _ (by rw [hg]; exact hs)]
    simp
  | cons c cs ih =>
    intro pre post s hx hs
    have hg : (pre ++ (c :: cs) ++ s :: post).getD pre.length 0 = c := by
      have h0 := getD_append_add 0 pre ((c :: cs) ++ s :: post) 0
      simpa using h0
    have hcx : (isSpaceByte c || c = 62 || c = 47) = false := hx c (List.mem_cons_self c cs)
    have hlt : pre.length < (pre ++ (c :: cs) ++ s :: post).length := by
      simp [List.length_append]
    rw [scanElemName_step _ _ hlt (by rw [hg]; exact hcx)]
    have hshape : pre ++ (c :: cs) ++ s :: post = (pre ++ [c]) ++ cs ++ s :: post := by
      simp
    rw [hshape]
    have hplen : pre.length + 1 = (pre ++ [c]).length := by simp
    rw [hplen]
    rw [ih (pre ++ [c]) post s (fun e he => hx e (List.mem_cons_of_mem c he)) hs]
    simp
    omega

theorem parse_attrs_at_gt (d : List Nat) (pos : Nat) (hp : pos < d.length)
    (hb : d.getD pos 0 = 62) : parse_attrs d pos = ⟨pos + 1, [], false⟩ := by
  rw [parse_attrs, parseAttrsLoop]
  dsimp only
  rw [if_pos hp]
  have hss : skip_spaces d pos = pos :=
    skip_spaces_eq_of_not_space d pos (by rw [hb]; rfl)
  rw [hss]
  rw [if_neg (by omega)]
  rw [if_pos hb]
  rfl

theorem parse_attrs_at_slash (d : List Nat) (pos : Nat) (hp : pos < d.length)
    (hb : d.getD pos 0 = 47) :
    parse_attrs d pos =
      ⟨if pos + 1 < d.length ∧ d.getD (pos + 1) 0 = 62 then pos + 2 else pos + 1,
       [], true⟩ := by
  rw [parse_attrs, parseAttrsLoop]
  dsimp only
  rw [if_pos hp]
  have hss : skip_spaces d pos = pos :=
    skip_spaces_eq_of_not_space d pos (by rw [hb]; rfl)
  rw [hss]
  rw [if_neg (by omega)]
  rw [if_neg (by rw [hb]; decide)]
  rw [if_pos hb]
  rfl


/-- Unfolding of the read wrapper on a fresh reader: the per-node reset is a
no-op there and the canonical fuel is the buffer length plus one. -/
theorem reader_read_init (d : List Nat) :
    reader_read_internal (initReader d) =
      (readLoop (d.length + 1) (initReader d)).getD (false, initReader d) := rfl

/-- Once the cursor has reached the end of the buffer, no further nodes are
produced. -/
theorem readNodes_at_end (n : Nat) (r : FastReader) (h : r.data.length ≤ r.pos) :
    readNodes n r = [] := by
  cases n with
  | zero => rfl
  | succ m =>
    have hf : (reader_read_internal r).1 = false := reader_read_at_end r h
    rw [readNodes]
    rw [if_neg (by rw [hf]; exact Bool.false_ne_true)]

/-- Symbolic evaluation of one read on the document consisting only of the
literally empty element written as a start tag directly followed by its end tag
(bytes of the string repr. of the two tags around name x): the collapse peek fires, the read
reports one empty ELEMENT named with the prefix-stripped x and consumes the
whole buffer. -/
theorem read_empty_pair (x : List Nat) (hne : x ≠ [])
    (hb : ∀ c ∈ x, 32 < c ∧ c ≠ 60 ∧ c ≠ 62 ∧ c ≠ 47)
    (h33 : x.getD 0 0 ≠ 33) (h63 : x.getD 0 0 ≠ 63) :
    reader_read_internal (initReader (60 :: x ++ [62, 60, 47] ++ x ++ [62])) =
      (true, { data := 60 :: x ++ [62, 60, 47] ++ x ++ [62],
               pos := (60 :: x ++ [62, 60, 47] ++ x ++ [62]).length,
               depth := 0, report_depth := 0, node_type := 1, is_empty := true,
               name := some (stripNsName x), text := [], text_has_entity := false,
               attrs := [] }) := by
  have hxlen : 0 < x.length := List.length_pos.mpr hne
  have hx0mem : x.getD 0 0 ∈ x := by
    cases x with
    | nil => exact absurd rfl hne
    | cons c0 cs => exact List.mem_cons_self c0 cs
  set d : List Nat := 60 :: x ++ [62, 60, 47] ++ x ++ [62] with hd
  have hlen : d.length = 2 * x.length + 5 := by
    rw [hd]
    simp only [List.length_cons, List.length_append, List.length_nil]
    omega
  have hc1 : d.getD (0 + 1) 0 = x.getD 0 0 := by
    have hsh : d = [60] ++ (x ++ ([62, 60, 47] ++ x ++ [62])) := by rw [hd]; simp
    have hix : (0 + 1 : Nat) = [60].length + 0 := rfl
    rw [hix, hsh, getD_append_add]
    exact getD_append_left 0 x ([62, 60, 47] ++ x ++ [62]) 0 hxlen
  have hscan : scanElemName d (0 + 1) = x.length + 1 := by
    have hsh : d = [60] ++ x ++ 62 :: ([60, 47] ++ x ++ [62]) := by rw [hd]; simp
    have hix : (0 + 1 : Nat) = [60].length := rfl
    have hcln : ∀ c ∈ x, (isSpaceByte c || c = 62 || c = 47) = false := by
      intro c hc
      obtain ⟨h1, -, h2, h3⟩ := hb c hc
      simp only [Bool.or_eq_false_iff, decide_eq_false_iff_not]
      exact ⟨⟨isSpaceByte_eq_false h1, h2⟩, h3⟩
    have h0 := scanElemName_clean x [60] ([60, 47] ++ x ++ [62]) 62 hcln (by decide)
    rw [hix, hsh, h0]
    simp only [List.length_cons, List.length_nil]
    omega
  have hslice1 : slice d (0 + 1) x.length = x := by
    have hsh : d = [60] ++ x ++ ([62, 60, 47] ++ x ++ [62]) := by rw [hd]; simp
    have hix : (0 + 1 : Nat) = [60].length := rfl
    rw [hix, hsh]
    exact slice_mid [60] x _
  have hgdN : d.getD (x.length + 1) 0 = 62 := by
    have hsh : d = ([60] ++ x) ++ ([62, 60, 47] ++ x ++ [62]) := by rw [hd]; simp
    have hix : x.length + 1 = ([60] ++ x).length + 0 := by
      simp only [List.length_append, List.length_cons, List.length_nil]; omega
    rw [hix, hsh, getD_append_add]
    rfl
  have hgP0 : d.getD (x.length + 1 + 1) 0 = 60 := by
    have hsh : d = ([60] ++ x ++ [62]) ++ ([60, 47] ++ x ++ [62]) := by rw [hd]; simp
    have hix : x.length + 1 + 1 = ([60] ++ x ++ [62]).length + 0 := by
      simp only [List.length_append, List.length_cons, List.length_nil]; omega
    rw [hix, hsh, getD_append_add]
    rfl
  have hgP1 : d.getD (x.length + 1 + 1 + 1) 0 = 47 := by
    have hsh : d = ([60] ++ x ++ [62, 60]) ++ ([47] ++ x ++ [62]) := by rw [hd]; simp
    have hix : x.length + 1 + 1 + 1 = ([60] ++ x ++ [62, 60]).length + 0 := by
      simp only [List.length_append, List.length_cons, List.length_nil]; omega
    rw [hix, hsh, getD_append_add]
    rfl
  have hmem : memchr d 62 (x.length + 1 + 1 + 2) (d.length - (x.length + 1 + 1 + 2)) =
      some (x.length + 1 + 1 + 2 + x.length) := by
    have hsh : d = ([60] ++ x ++ [62, 60, 47]) ++ x ++ 62 :: [] := by rw [hd]; simp
    have hix : x.length + 1 + 1 + 2 = ([60] ++ x ++ [62, 60, 47]).length := by
      simp only [List.length_append, List.length_cons, List.length_nil]; omega
    have h62 : (62 : Nat) ∉ x := fun hc => (hb 62 hc).2.2.1 rfl
    rw [hix, hsh]
    exact memchr_structured ([60] ++ x ++ [62, 60, 47]) x [] 62 _ h62
      (by simp only [List.length_append, List.length_cons, List.length_nil]; omega)
  have hslice2 : slice d (x.length + 1 + 1 + 2) x.length = x := by
    have hsh : d = ([60] ++ x ++ [62, 60, 47]) ++ x ++ [62] := by rw [hd]; simp
    have hix : x.length + 1 + 1 + 2 = ([60] ++ x ++ [62, 60, 47]).length := by
      simp only [List.length_append, List.length_cons, List.length_nil]; omega
    rw [hix, hsh]
    exact slice_mid _ x _
  have htrim : trimTrailing (stripNsName x) = stripNsName x :=
    trimTrailing_eq_self _ (fun c hc => (hb c (stripNsName_subset x c hc)).1)
  rw [reader_read_init, readLoop]
  dsimp only [initReader]
  rw [if_neg (by omega)]
  rw [if_pos (by rw [hd]; rfl)]
  rw [if_neg (by omega)]
  rw [if_neg (by rw [hc1]; exact (hb _ hx0mem).2.2.2)]
  rw [if_neg (by rw [hc1]; exact fun hq => h33 hq.1)]
  rw [if_neg (by rw [hc1]; exact fun hq => h33 hq.1)]
  rw [if_neg (by rw [hc1]; exact fun hq => h33 hq.1)]
  rw [if_neg (by rw [hc1]; exact h63)]
  rw [Option.getD_some, startTagStep]
  dsimp only
  rw [hscan]
  have hsub : x.length + 1 - (0 + 1) = x.length := by omega
  rw [hsub, hslice1]
  rw [parse_attrs_at_gt d (x.length + 1) (by omega) hgdN]
  dsimp only
  have hcond1 : (false : Bool) = false := rfl
  rw [if_pos hcond1]
  have hcond2 : x.length + 1 + 1 + 1 < d.length ∧ d.getD (x.length + 1 + 1) 0 = 60 ∧
      d.getD (x.length + 1 + 1 + 1) 0 = 47 := ⟨by omega, hgP0, hgP1⟩
  rw [if_pos hcond2]
  simp only [hmem]
  have hsub2 : x.length + 1 + 1 + 2 + x.length - (x.length + 1 + 1 + 2) = x.length := by
    omega
  rw [hsub2, hslice2, htrim]
  have hcond3 : (stripNsName x).length = (stripNsName x).length ∧
      (stripNsName x).take (stripNsName x).length =
        (stripNsName x).take (stripNsName x).length := ⟨rfl, rfl⟩
  rw [if_pos hcond3]
  have hfin : x.length + 1 + 1 + 2 + x.length + 1 = d.length := by omega
  rw [hfin]
  rfl

/-- Symbolic evaluation of one read on the self-closing one-element document
around name x: the read reports one empty ELEMENT named with the
prefix-stripped x and consumes the whole buffer. -/
theorem read_selfclosing (x : List Nat) (hne : x ≠ [])
    (hb : ∀ c ∈ x, 32 < c ∧ c ≠ 60 ∧ c ≠ 62 ∧ c ≠ 47)
    (h33 : x.getD 0 0 ≠ 33) (h63 : x.getD 0 0 ≠ 63) :
    reader_read_internal (initReader (60 :: x ++ [47, 62])) =
      (true, { data := 60 :: x ++ [47, 62],
               pos := (60 :: x ++ [47, 62]).length,
               depth := 0, report_depth := 0, node_type := 1, is_empty := true,
               name := some (stripNsName x), text := [], text_has_entity := false,
               attrs := [] }) := by
  have hxlen : 0 < x.length := List.length_pos.mpr hne
  have hx0mem : x.getD 0 0 ∈ x := by
    cases x with
    | nil => exact absurd rfl hne
    | cons c0 cs => exact List.mem_cons_self c0 cs
  set d : List Nat := 60 :: x ++ [47, 62] with hd
  have hlen : d.length = x.length + 3 := by
    rw [hd]
    simp only [List.length_cons, List.length_append, List.length_nil]
  have hc1 : d.getD (0 + 1) 0 = x.getD 0 0 := by
    have hsh : d = [60] ++ (x ++ [47, 62]) := by rw [hd]; simp
    have hix : (0 + 1 : Nat) = [60].length + 0 := rfl
    rw [hix, hsh, getD_append_add]
    exact getD_append_left 0 x _ 0 hxlen
  have hscan : scanElemName d (0 + 1) = x.length + 1 := by
    have hsh : d = [60] ++ x ++ 47 :: [62] := by rw [hd]; simp
    have hix : (0 + 1 : Nat) = [60].length := rfl
    have hcln : ∀ c ∈ x, (isSpaceByte c || c = 62 || c = 47) = false := by
      intro c hc
      obtain ⟨h1, -, h2, h3⟩ := hb c hc
      simp only [Bool.or_eq_false_iff, decide_eq_false_iff_not]
      exact ⟨⟨isSpaceByte_eq_false h1, h2⟩, h3⟩
    have h0 := scanElemName_clean x [60] [62] 47 hcln (by decide)
    rw [hix, hsh, h0]
    simp only [List.length_cons, List.length_nil]
    omega
  have hslice1 : slice d (0 + 1) x.length = x := by
    have hsh : d = [60] ++ x ++ [47, 62] := by rw [hd]; simp
    have hix : (0 + 1 : Nat) = [60].length := rfl
    rw [hix, hsh]
    exact slice_mid [60] x _
  have hgdN : d.getD (x.length + 1) 0 = 47 := by
    have hsh : d = ([60] ++ x) ++ [47, 62] := by rw [hd]; simp
    have hix : x.length + 1 = ([60] ++ x).length + 0 := by
      simp only [List.length_append, List.length_cons, List.length_nil]; omega
    rw [hix, hsh, getD_append_add]
    rfl
  have hgd2 : d.getD (x.length + 1 + 1) 0 = 62 := by
    have hsh : d = ([60] ++ x ++ [47]) ++ [62] := by rw [hd]; simp
    have hix : x.length + 1 + 1 = ([60] ++ x ++ [47]).length + 0 := by
      simp only [List.length_append, List.length_cons, List.length_nil]; omega
    rw [hix, hsh, getD_append_add]
    rfl
  have hga : parse_attrs d (x.length + 1) = ⟨x.length + 1 + 2, [], true⟩ := by
    rw [parse_attrs_at_slash d (x.length + 1) (by omega) hgdN]
    have hcond : x.length + 1 + 1 < d.length ∧ d.getD (x.length + 1 + 1) 0 = 62 :=
      ⟨by omega, hgd2⟩
    rw [if_pos hcond]
  rw [reader_read_init, readLoop]
  dsimp only [initReader]
  rw [if_neg (by omega)]
  rw [if_pos (by rw [hd]; rfl)]
  rw [if_neg (by omega)]
  rw [if_neg (by rw [hc1]; exact (hb _ hx0mem).2.2.2)]
  rw [if_neg (by rw [hc1]; exact fun hq => h33 hq.1)]
  rw [if_neg (by rw [hc1]; exact fun hq => h33 hq.1)]
  rw [if_neg (by rw [hc1]; exact fun hq => h33 hq.1)]
  rw [if_neg (by rw [hc1]; exact h63)]
  rw [Option.getD_some, startTagStep]
  dsimp only
  rw [hscan]
  have hsub : x.length + 1 - (0 + 1) = x.length := by omega
  rw [hsub, hslice1, hga]
  dsimp only
  have hcond1 : ¬((true : Bool) = false) := by decide
  rw [if_neg hcond1]
  have hfin : x.length + 1 + 2 = d.length := by omega
  rw [hfin]
  rfl

/-- C2 (corrected): for every element name x (non-empty, made of name bytes:
above the space range and none of the bytes for less-than, greater-than or
slash, and not starting with an exclamation mark or question mark byte), the
document containing the start tag immediately followed by the matching end tag
yields exactly the same node sequence as the self-closing document: one single
ELEMENT node with is_empty = true, the prefix-stripped name, depth 0, no text,
no attributes -- and in particular no END_ELEMENT node.  This is the
literally-empty-content case of the claim; the whitespace-only case of the
original claim text is refuted by the counterexample theorem
collapse_whitespace_counterexample. -/
theorem collapse_empty_eq_selfclosing (x : List Nat) (hne : x ≠ [])
    (hb : ∀ c ∈ x, 32 < c ∧ c ≠ 60 ∧ c ≠ 62 ∧ c ≠ 47)
    (h33 : x.getD 0 0 ≠ 33) (h63 : x.getD 0 0 ≠ 63) :
    nodesOf (60 :: x ++ [62, 60, 47] ++ x ++ [62]) =
      [⟨1, some (stripNsName x), 0, [], true, []⟩] ∧
    nodesOf (60 :: x ++ [47, 62]) =
      [⟨1, some (stripNsName x), 0, [], true, []⟩] := by
  constructor
  · rw [nodesOf, readNodes]
    rw [read_empty_pair x hne hb h33 h63]
    dsimp only
    rw [if_pos rfl]
    rw [readNodes_at_end _ _ (by exact Nat.le_refl _)]
    rfl
  · rw [nodesOf, readNodes]
    rw [read_selfclosing x hne hb h33 h63]
    dsimp only
    rw [if_pos rfl]
    rw [readNodes_at_end _ _ (by exact Nat.le_refl _)]
    rfl

/-- Witness for C2: the corrected collapse equivalence evaluated at the
one-byte name a, documents of the forms name-pair and self-closing. -/
theorem collapse_empty_eq_selfclosing_witness :
    nodesOf [60, 97, 62, 60, 47, 97, 62] =
      [⟨1, some (stripNsName [97]), 0, [], true, []⟩] ∧
    nodesOf [60, 97, 47, 62] = [⟨1, some (stripNsName [97]), 0, [], true, []⟩] :=
  collapse_empty_eq_selfclosing [97] (by decide) (by decide) (by decide) (by decide)

end FXR
